import Mathlib

/-!
Verification of the kashk storage engine (package `storage`).

This file shallowly embeds the engine from the Go sources:
  * `engine.go`     — `Engine`, `putKeyValue`, `deleteKey`, `appendKeyValue`,
                      `findValueInLogs`, `readValueFromFile`, `validateKey`,
                      `validateValue`, `createNewFile`
  * `dataFile.go`   — the record codec (`readDataFile`, offsets),
                      `extractFileNumber`
  * readLog.go      — `readLog`, `writeLog`, `initReadLogs`, `extractReadLog`
  * `compaction.go` — `compact`, `replaceCompactedLogs`, `isLogInSnapshot`

Byte strings are modelled as `List Nat` (Go `[]byte`); on-disk files are flat
byte lists; offsets are byte positions, exactly as in the source.  Sizes that
Go keeps in `int64` are modelled as `Nat` (they are always non-negative in the
source), and the `uint32(len(...))` conversions that Go performs when writing
the on-disk length prefixes are modelled by truncation modulo 2^32, as in Go.

The model is sequential: the `sync` locks serialise every operation in the
source, so one engine operation is one step.  File-system errors are out of
scope; the file paths/identifiers of segments are kept as their numeric part
(`<n>.dat` is the segment with identifier `n`).
-/

namespace Kashk

/-- Bytes models a Go byte string (`[]byte` / `string` converted to bytes). -/
abbrev Bytes := List Nat

/-! ## Record codec (dataFile.go / appendKeyValue)

A record on disk is `u32le key_len | key | u32le value_len | value`.
-/

/-- le32 models `binary.LittleEndian.PutUint32(buf, uint32(n))`: the four
little-endian bytes of `n` truncated to 32 bits. -/
def le32 (n : Nat) : Bytes :=
  [n % 256, n / 256 % 256, n / 65536 % 256, n / 16777216 % 256]

/-- decodeLE32 models `binary.LittleEndian.Uint32` on the first four bytes of
`b` (Go bytes are < 256; the model reduces mod 256 to stay total). -/
def decodeLE32 (b : Bytes) : Nat :=
  b.headD 0 % 256 + 256 * ((b.drop 1).headD 0 % 256) +
    65536 * ((b.drop 2).headD 0 % 256) + 16777216 * ((b.drop 3).headD 0 % 256)

/-- readDataFile models `readDataFile`/`readAtDataFile` of dataFile.go reading
at byte position `pos` of file content `c`: four length bytes, then exactly
that many payload bytes.  `none` is any read error (short file). -/
def readDataFile (c : Bytes) (pos : Nat) : Option (Bytes × Nat) :=
  if pos + 4 ≤ c.length then
    let sz := decodeLE32 (c.drop pos)
    if pos + 4 + sz ≤ c.length then some ((c.drop (pos + 4)).take sz, pos + 4 + sz)
    else none
  else none

/-! ## In-memory index (`map[string]int64` of the source)

Go map iteration order is unspecified; the model fixes one deterministic
representative: an association list where assignment updates an existing key
in place and appends a fresh key at the end, and iteration follows list
order. -/

/-- lookupIdx models `index[key]` (the comma-ok map read). -/
def lookupIdx (idx : List (Bytes × Nat)) (k : Bytes) : Option Nat :=
  match idx with
  | [] => none
  | (k₁, o) :: rest => if k₁ = k then some o else lookupIdx rest k

/-- upsert models the map assignment `index[key] = off`. -/
def upsert (idx : List (Bytes × Nat)) (k : Bytes) (off : Nat) : List (Bytes × Nat) :=
  match idx with
  | [] => [(k, off)]
  | (k₁, o) :: rest => if k₁ = k then (k₁, off) :: rest else (k₁, o) :: upsert rest k off

/-! ## Engine state (engine.go) -/

/-- readLog of readLog.go: a sealed segment.  `id` is the numeric part of the
file name (`<id>.dat`); `content` is the file's bytes. -/
structure ReadLog where
  id : Nat
  content : Bytes
  index : List (Bytes × Nat)
deriving DecidableEq

/-- writeLog of readLog.go: the active segment with its running byte size. -/
structure WriteLog where
  id : Nat
  content : Bytes
  index : List (Bytes × Nat)
  size : Nat
deriving DecidableEq

/-- Engine of engine.go.  Locks, the directory path and the lock file are
outside the sequential model. -/
structure Engine where
  readLogs : List ReadLog
  writeLog : WriteLog
  maxLogBytes : Nat
  maxKeyBytes : Nat
  tombStone : Bytes
deriving DecidableEq

/-- Cfg is the immutable configuration part of an engine. -/
structure Cfg where
  maxLogBytes : Nat
  maxKeyBytes : Nat
  tombStone : Bytes
deriving DecidableEq

def cfgOf (e : Engine) : Cfg := ⟨e.maxLogBytes, e.maxKeyBytes, e.tombStone⟩

/-- mkEngine models `NewEngine` on an empty directory: no sealed segments and
a fresh active segment `1.dat` (`createNewFile` with `len(readLogs)+1 = 1`). -/
def mkEngine (c : Cfg) : Engine :=
  ⟨[], ⟨1, [], [], 0⟩, c.maxLogBytes, c.maxKeyBytes, c.tombStone⟩

/-- defaultTombstone of engine.go, as bytes. -/
def defaultTombstone : Bytes :=
  ([116, 111, 109, 98, 115, 116, 111, 110, 101] : List Nat) ++ [45] ++
    [106, 98, 99, 52, 54, 45, 113, 52, 50, 102, 100, 45, 112, 103, 103, 109,
     99, 45, 107, 112, 51, 56, 121, 45, 54, 109, 113, 100, 56]

/-- defaultCfg: `DefaultLogSize = 10*MB`, `defaultKeySize = 1*KB`. -/
def defaultCfg : Cfg := ⟨10 * 1048576, 1024, defaultTombstone⟩

/-- ValidKey models `validateKey` succeeding: the key is non-empty and at most
`maxKeyBytes` long (engine.go). -/
def ValidKey (e : Engine) (k : Bytes) : Prop :=
  k ≠ [] ∧ k.length ≤ e.maxKeyBytes

instance (e : Engine) (k : Bytes) : Decidable (ValidKey e k) :=
  inferInstanceAs (Decidable (_ ∧ _))

/-- ValidValue models `validateValue` succeeding: the value is not the
tombstone and at most `maxLogBytes` long (engine.go). -/
def ValidValue (e : Engine) (v : Bytes) : Prop :=
  v ≠ e.tombStone ∧ v.length ≤ e.maxLogBytes

instance (e : Engine) (v : Bytes) : Decidable (ValidValue e v) :=
  inferInstanceAs (Decidable (_ ∧ _))

/-- sealOf is the promotion of the active segment to a sealed `readLog`
(`&readLog{path: e.writeLog.file.Name(), index: e.writeLog.index}`). -/
def sealOf (w : WriteLog) : ReadLog := ⟨w.id, w.content, w.index⟩

/-- appendKeyValue of engine.go.  If the active size has reached
`maxLogBytes`, the active segment is sealed and a new one is created first
(`createNewFile` names it `len(readLogs)+1` after the seal, hence
`e.readLogs.length + 2`); then the record is appended to the active file,
the running size is advanced by the written byte counts, and the index maps
the key to the position of the value-length field. -/
def appendKeyValue (e : Engine) (k v : Bytes) : Engine :=
  let e₁ : Engine :=
    if e.maxLogBytes ≤ e.writeLog.size then
      { e with readLogs := e.readLogs ++ [sealOf e.writeLog],
               writeLog := ⟨e.readLogs.length + 2, [], [], 0⟩ }
    else e
  let c₁ : Bytes := e₁.writeLog.content ++ le32 k.length ++ k
  let pos : Nat := c₁.length
  { e₁ with
      writeLog :=
        { e₁.writeLog with
            content := c₁ ++ le32 v.length ++ v,
            size := e₁.writeLog.size + (4 + k.length) + (4 + v.length),
            index := upsert e₁.writeLog.index k pos } }

/-- PutErr distinguishes the two validation failures of `putKeyValue`. -/
inductive PutErr where
  | keyInvalid
  | valueInvalid
deriving DecidableEq

/-- PutRes is the result of `Put`/`Delete` (`error` return of the source; an
error return leaves the engine unchanged, which the model renders by not
producing a state). -/
inductive PutRes where
  | ok (e : Engine)
  | err (er : PutErr)
deriving DecidableEq

/-- putKeyValue of engine.go: validate the key, then the value, then append. -/
def putKeyValue (e : Engine) (k v : Bytes) : PutRes :=
  if ValidKey e k then
    if ValidValue e v then .ok (appendKeyValue e k v) else .err .valueInvalid
  else .err .keyInvalid

/-- deleteKey of engine.go: validate the key only, then append the tombstone. -/
def deleteKey (e : Engine) (k : Bytes) : PutRes :=
  if ValidKey e k then .ok (appendKeyValue e k e.tombStone) else .err .keyInvalid

/-- GetRes is the result of `Get`: the value, or the key-validation error, or
any not-found outcome (the source's "key not found" / "value not found"). -/
inductive GetRes where
  | ok (v : Bytes)
  | keyInvalid
  | notFound
deriving DecidableEq

/-- readValueFromFile of engine.go: read the length-prefixed value at `off`
and reject the tombstone ("value not found"). `none` covers both that
rejection and read errors; `Get` turns it into a not-found result and
`compact` into a failure, as in the source. -/
def readValueFromFile (e : Engine) (c : Bytes) (off : Nat) : Option Bytes :=
  match readDataFile c off with
  | none => none
  | some (v, _) => if v = e.tombStone then none else some v

/-- findInReadLogs is the loop of `findValueInLogs` walking the sealed
segments; the caller passes `e.readLogs.reverse` so the newest is first
(the source iterates `i := len(e.readLogs)-1; i >= 0; i--`). -/
def findInReadLogs (e : Engine) (logs : List ReadLog) (k : Bytes) : GetRes :=
  match logs with
  | [] => .notFound
  | lg :: rest =>
    match lookupIdx lg.index k with
    | some off =>
      match readValueFromFile e lg.content off with
      | some v => .ok v
      | none => .notFound
    | none => findInReadLogs e rest k

/-- findValueInLogs of engine.go: validate the key, probe the active
segment's index, otherwise walk the sealed segments newest first. -/
def findValueInLogs (e : Engine) (k : Bytes) : GetRes :=
  if ValidKey e k then
    match lookupIdx e.writeLog.index k with
    | some off =>
      match readValueFromFile e e.writeLog.content off with
      | some v => .ok v
      | none => .notFound
    | none => findInReadLogs e e.readLogs.reverse k
  else .keyInvalid

/-! ## Workloads -/

/-- Op is one client operation (`Put` or `Delete`). -/
inductive Op where
  | put (k v : Bytes)
  | del (k : Bytes)
deriving DecidableEq

/-- applyOp runs one operation; a validation error leaves the state as is. -/
def applyOp (e : Engine) (op : Op) : Engine :=
  match op with
  | .put k v => match putKeyValue e k v with | .ok e₁ => e₁ | .err _ => e
  | .del k => match deleteKey e k with | .ok e₁ => e₁ | .err _ => e

/-- runOps runs a workload left to right. -/
def runOps (e : Engine) (ops : List Op) : Engine := ops.foldl applyOp e

/-! ## Abstract view of a segment: its list of records

A segment's byte content is the concatenation of encoded records; the
in-memory index is determined by that record list.  The following functions
define that correspondence; the statements proved below relate the engine's
byte-level state to it. -/

/-- LogAbs is the record list of one segment, in append order. -/
abbrev LogAbs := List (Bytes × Bytes)

/-- encodeRecord is the on-disk encoding of one record, as written by
`appendKeyValue`. -/
def encodeRecord (k v : Bytes) : Bytes :=
  le32 k.length ++ k ++ (le32 v.length ++ v)

/-- encodeRecs is the byte content of a segment holding records `rs`. -/
def encodeRecs : LogAbs → Bytes
  | [] => []
  | (k, v) :: rs => encodeRecord k v ++ encodeRecs rs

/-- sizeRecs is the byte size of a segment holding records `rs`. -/
def sizeRecs : LogAbs → Nat
  | [] => 0
  | (k, v) :: rs => (8 + k.length + v.length) + sizeRecs rs

/-- buildIndex replays `index[key] = value_offset` over the records of a
segment whose already-written part has `pos` bytes. -/
def buildIndex (pos : Nat) : LogAbs → List (Bytes × Nat) → List (Bytes × Nat)
  | [], idx => idx
  | (k, v) :: rs, idx =>
    buildIndex (pos + (8 + k.length + v.length)) rs (upsert idx k (pos + 4 + k.length))

/-- indexOfRecs is the index a segment with records `rs` carries. -/
def indexOfRecs (rs : LogAbs) : List (Bytes × Nat) := buildIndex 0 rs []

/-- lastValOff finds the value offset and value of the latest occurrence of
`k` among records `rs` placed at byte position `pos`. -/
def lastValOff (pos : Nat) (k : Bytes) : LogAbs → Option (Nat × Bytes)
  | [] => none
  | (k₁, v) :: rs =>
    match lastValOff (pos + (8 + k₁.length + v.length)) k rs with
    | some r => some r
    | none => if k₁ = k then some (pos + 4 + k.length, v) else none

/-- lastVal is the value of the latest occurrence of `k` in `rs`, if any
(later records take precedence). -/
def lastVal (k : Bytes) : LogAbs → Option Bytes
  | [] => none
  | (k₁, v) :: rs =>
    match lastVal k rs with
    | some w => some w
    | none => if k₁ = k then some v else none

/-- flattenRecs joins per-segment record lists, oldest segment first. -/
def flattenRecs : List LogAbs → LogAbs
  | [] => []
  | rs :: rest => rs ++ flattenRecs rest

/-! ### Codec lemmas -/

theorem le32_length (n : Nat) : (le32 n).length = 4 := rfl

theorem decodeLE32_le32 (n : Nat) (rest : Bytes) :
    decodeLE32 (le32 n ++ rest) = n % 4294967296 := by
  show n % 256 % 256 + 256 * (n / 256 % 256 % 256) + 65536 * (n / 65536 % 256 % 256)
      + 16777216 * (n / 16777216 % 256 % 256) = n % 4294967296
  omega

/-- readDataFile at the start of an encoded value reads exactly that value,
provided its length fits the 32-bit length prefix. -/
theorem readDataFile_value (pre v suf : Bytes) (h : v.length < 4294967296) :
    readDataFile (pre ++ (le32 v.length ++ v) ++ suf) pre.length
      = some (v, pre.length + 4 + v.length) := by
  have hlen : (pre ++ (le32 v.length ++ v) ++ suf).length
      = pre.length + 4 + v.length + suf.length := by
    simp [List.length_append, le32_length]; omega
  have hdrop : (pre ++ (le32 v.length ++ v) ++ suf).drop pre.length
      = le32 v.length ++ (v ++ suf) := by
    rw [List.append_assoc, List.drop_left, List.append_assoc]
  have hdec : decodeLE32 ((pre ++ (le32 v.length ++ v) ++ suf).drop pre.length)
      = v.length := by
    rw [hdrop, decodeLE32_le32, Nat.mod_eq_of_lt h]
  have hdrop4 : (pre ++ (le32 v.length ++ v) ++ suf).drop (pre.length + 4)
      = v ++ suf := by
    have : pre ++ (le32 v.length ++ v) ++ suf = (pre ++ le32 v.length) ++ (v ++ suf) := by
      simp [List.append_assoc]
    rw [this]
    have hl : (pre ++ le32 v.length).length = pre.length + 4 := by
      simp [List.length_append, le32_length]
    rw [← hl, List.drop_left]
  unfold readDataFile
  rw [if_pos (by omega), hdec, if_pos (by omega), hdrop4, List.take_left']
  rfl

/-! ### Index lemmas -/

theorem lookupIdx_upsert (idx : List (Bytes × Nat)) (k : Bytes) (off : Nat) (k₂ : Bytes) :
    lookupIdx (upsert idx k off) k₂ = if k = k₂ then some off else lookupIdx idx k₂ := by
  induction idx with
  | nil => by_cases h : k = k₂ <;> simp [upsert, lookupIdx, h]
  | cons hd tl ih =>
    obtain ⟨k₁, o⟩ := hd
    by_cases h1 : k₁ = k
    · subst h1
      by_cases h2 : k₁ = k₂ <;> simp [upsert, lookupIdx, h2]
    · by_cases h2 : k₁ = k₂
      · subst h2
        have : ¬ k = k₁ := fun h => h1 h.symm
        simp [upsert, lookupIdx, h1, this]
      · simp [upsert, lookupIdx, h1, h2, ih]

theorem lookupIdx_buildIndex (rs : LogAbs) :
    ∀ (pos : Nat) (idx : List (Bytes × Nat)) (k : Bytes),
      lookupIdx (buildIndex pos rs idx) k
        = (match lastValOff pos k rs with
           | some r => some r.1
           | none => lookupIdx idx k) := by
  induction rs with
  | nil => intro pos idx k; simp [buildIndex, lastValOff]
  | cons hd tl ih =>
    intro pos idx k
    obtain ⟨k₁, v⟩ := hd
    show lookupIdx (buildIndex (pos + (8 + k₁.length + v.length)) tl
        (upsert idx k₁ (pos + 4 + k₁.length))) k = _
    rw [ih]
    cases h : lastValOff (pos + (8 + k₁.length + v.length)) k tl with
    | some r => simp [lastValOff, h]
    | none =>
      rw [lookupIdx_upsert]
      by_cases hk : k₁ = k
      · subst hk; simp [lastValOff, h]
      · simp [lastValOff, h, hk]

theorem lookupIdx_indexOfRecs (rs : LogAbs) (k : Bytes) :
    lookupIdx (indexOfRecs rs) k
      = (match lastValOff 0 k rs with
         | some r => some r.1
         | none => none) := by
  rw [indexOfRecs, lookupIdx_buildIndex]
  cases lastValOff 0 k rs <;> simp [lookupIdx]

theorem lastValOff_val (rs : LogAbs) :
    ∀ (pos : Nat) (k : Bytes), (lastValOff pos k rs).map (·.2) = lastVal k rs := by
  induction rs with
  | nil => intro pos k; simp [lastValOff, lastVal]
  | cons hd tl ih =>
    intro pos k
    obtain ⟨k₁, v⟩ := hd
    have htl := ih (pos + (8 + k₁.length + v.length)) k
    simp only [lastValOff, lastVal]
    cases h : lastValOff (pos + (8 + k₁.length + v.length)) k tl with
    | some r =>
      rw [h] at htl
      rw [← htl]
      rfl
    | none =>
      rw [h] at htl
      rw [← htl]
      by_cases hk : k₁ = k <;> simp [hk]

theorem lastValOff_none (rs : LogAbs) (pos : Nat) (k : Bytes) :
    lastValOff pos k rs = none ↔ lastVal k rs = none := by
  have := lastValOff_val rs pos k
  constructor
  · intro h; rw [h] at this; exact this.symm
  · intro h
    rw [h] at this
    cases hh : lastValOff pos k rs with
    | none => rfl
    | some r => rw [hh] at this; simp at this

theorem encodeRecord_length (k v : Bytes) :
    (encodeRecord k v).length = 8 + k.length + v.length := by
  simp [encodeRecord, List.length_append, le32_length]
  omega

theorem encodeRecs_append (rs₁ rs₂ : LogAbs) :
    encodeRecs (rs₁ ++ rs₂) = encodeRecs rs₁ ++ encodeRecs rs₂ := by
  induction rs₁ with
  | nil => simp [encodeRecs]
  | cons hd tl ih => obtain ⟨k, v⟩ := hd; simp [encodeRecs, ih]

theorem sizeRecs_append (rs₁ rs₂ : LogAbs) :
    sizeRecs (rs₁ ++ rs₂) = sizeRecs rs₁ + sizeRecs rs₂ := by
  induction rs₁ with
  | nil => simp [sizeRecs]
  | cons hd tl ih => obtain ⟨k, v⟩ := hd; simp [sizeRecs, ih]; omega

theorem encodeRecs_length (rs : LogAbs) : (encodeRecs rs).length = sizeRecs rs := by
  induction rs with
  | nil => simp [encodeRecs, sizeRecs]
  | cons hd tl ih =>
    obtain ⟨k, v⟩ := hd
    simp [encodeRecs, sizeRecs, List.length_append, encodeRecord_length, ih]

/-- readDataFile at the offset recorded for the latest occurrence of a key
returns exactly the value of that occurrence. -/
theorem readDataFile_lastValOff (rs : LogAbs) :
    ∀ (pre suf k : Bytes) (o : Nat) (v : Bytes),
      (∀ r ∈ rs, r.2.length < 4294967296) →
      lastValOff pre.length k rs = some (o, v) →
      readDataFile (pre ++ encodeRecs rs ++ suf) o = some (v, o + 4 + v.length) := by
  induction rs with
  | nil => intro pre suf k o v _ h; simp [lastValOff] at h
  | cons hd tl ih =>
    intro pre suf k o v hw h
    obtain ⟨k₁, v₁⟩ := hd
    have hassoc : pre ++ encodeRecs ((k₁, v₁) :: tl) ++ suf
        = (pre ++ encodeRecord k₁ v₁) ++ encodeRecs tl ++ suf := by
      simp [encodeRecs, List.append_assoc]
    simp only [lastValOff] at h
    cases htl : lastValOff (pre.length + (8 + k₁.length + v₁.length)) k tl with
    | some r =>
      rw [htl] at h
      cases h
      rw [hassoc]
      refine ih (pre ++ encodeRecord k₁ v₁) suf k o v (fun r hr => hw r (by simp [hr])) ?_
      rw [List.length_append, encodeRecord_length]
      exact htl
    | none =>
      rw [htl] at h
      by_cases hk : k₁ = k
      · rw [if_pos hk] at h
        subst hk
        injection h with h₂
        have ho : o = pre.length + 4 + k₁.length := (congrArg Prod.fst h₂).symm
        have hv : v = v₁ := (congrArg Prod.snd h₂).symm
        subst ho
        subst hv
        have hsplit : pre ++ encodeRecs ((k₁, v) :: tl) ++ suf
            = (pre ++ le32 k₁.length ++ k₁) ++ (le32 v.length ++ v) ++ (encodeRecs tl ++ suf) := by
          simp [encodeRecs, encodeRecord, List.append_assoc]
        have hlen : (pre ++ le32 k₁.length ++ k₁).length = pre.length + 4 + k₁.length := by
          simp only [List.length_append, le32_length]
        have hres := readDataFile_value (pre ++ le32 k₁.length ++ k₁) v
          (encodeRecs tl ++ suf) (hw (k₁, v) (by simp))
        rw [hlen] at hres
        rw [hsplit]
        exact hres
      · rw [if_neg hk] at h
        cases h

/-! ### Well-formedness and correspondence predicates -/

/-- RecsWf: every record of a put/delete-built segment has a valid key and a
validated value or the tombstone. -/
def RecsWf (c : Cfg) (rs : LogAbs) : Prop :=
  ∀ r ∈ rs, r.1 ≠ [] ∧ r.1.length ≤ c.maxKeyBytes ∧
    (r.2.length ≤ c.maxLogBytes ∨ r.2 = c.tombStone)

/-- CfgWf: positive size limits as enforced by the option setters, a non-empty
tombstone, and all three below 2^32 so that the 32-bit on-disk length
prefixes are faithful (see the C1 correction for what happens beyond). -/
def CfgWf (c : Cfg) : Prop :=
  0 < c.maxLogBytes ∧ c.tombStone ≠ [] ∧ c.maxKeyBytes < 4294967296 ∧
    c.maxLogBytes < 4294967296 ∧ c.tombStone.length < 4294967296

theorem recsWf_values (c : Cfg) (rs : LogAbs) (hc : CfgWf c) (hr : RecsWf c rs) :
    ∀ r ∈ rs, r.2.length < 4294967296 := by
  intro r hmem
  rcases hr r hmem with ⟨-, -, hv | hv⟩
  · exact lt_of_le_of_lt hv hc.2.2.2.1
  · rw [hv]; exact hc.2.2.2.2

/-- LogMatches: a sealed segment holds exactly the records `rs`. -/
def LogMatches (lg : ReadLog) (rs : LogAbs) : Prop :=
  lg.content = encodeRecs rs ∧ lg.index = indexOfRecs rs

/-- WLogMatches: the active segment holds exactly the records `rs`. -/
def WLogMatches (w : WriteLog) (rs : LogAbs) : Prop :=
  w.content = encodeRecs rs ∧ w.index = indexOfRecs rs ∧ w.size = sizeRecs rs

/-- GoodLogs: the engine's segments hold the record lists `rss` (sealed,
oldest first) and `ra` (active), all well-formed. -/
def GoodLogs (e : Engine) (rss : List LogAbs) (ra : LogAbs) : Prop :=
  List.Forall₂ LogMatches e.readLogs rss ∧ WLogMatches e.writeLog ra ∧
    (∀ rs ∈ rss, RecsWf (cfgOf e) rs) ∧ RecsWf (cfgOf e) ra

/-- getResOf : the `Get` outcome determined by a resolved raw value. -/
def getResOf (e : Engine) : Option Bytes → GetRes
  | none => .notFound
  | some v => if v = e.tombStone then .notFound else .ok v

/-- snapVal scans record lists newest-first for the first one containing the
key and yields its latest value there. -/
def snapVal (k : Bytes) : List LogAbs → Option Bytes
  | [] => none
  | rs :: rest =>
    match lastVal k rs with
    | some v => some v
    | none => snapVal k rest

theorem lookupIdx_recs_none (rs : LogAbs) (k : Bytes) (h : lastVal k rs = none) :
    lookupIdx (indexOfRecs rs) k = none := by
  rw [lookupIdx_indexOfRecs, (lastValOff_none rs 0 k).2 h]

theorem lookupIdx_recs_some (e : Engine) (rs : LogAbs) (k v : Bytes)
    (hw : ∀ r ∈ rs, r.2.length < 4294967296) (h : lastVal k rs = some v) :
    ∃ o, lookupIdx (indexOfRecs rs) k = some o ∧
      readValueFromFile e (encodeRecs rs) o = (if v = e.tombStone then none else some v) := by
  cases hoff : lastValOff 0 k rs with
  | none => rw [(lastValOff_none rs 0 k).1 hoff] at h; cases h
  | some r =>
    obtain ⟨o, w⟩ := r
    have hval := lastValOff_val rs 0 k
    rw [hoff, h] at hval
    simp at hval
    obtain rfl := hval
    refine ⟨o, ?_, ?_⟩
    · rw [lookupIdx_indexOfRecs, hoff]
    · have hrd := readDataFile_lastValOff rs [] [] k o w hw (by simpa using hoff)
      simp only [List.nil_append, List.append_nil] at hrd
      unfold readValueFromFile
      rw [hrd]

/-- findInReadLogs over segments holding `rssRev` (newest first) resolves to
the first segment containing the key. -/
theorem findInReadLogs_eq (e : Engine) (k : Bytes) :
    ∀ (logs : List ReadLog) (rssRev : List LogAbs),
      List.Forall₂ LogMatches logs rssRev →
      (∀ rs ∈ rssRev, ∀ r ∈ rs, r.2.length < 4294967296) →
      findInReadLogs e logs k = getResOf e (snapVal k rssRev) := by
  intro logs rssRev hall
  induction hall with
  | nil => intro _; rfl
  | cons hlr htl ih =>
    rename_i lg rs logs₁ rss₁
    intro hw
    show findInReadLogs e (lg :: logs₁) k = _
    simp only [findInReadLogs]
    cases hlv : lastVal k rs with
    | none =>
      rw [hlr.2, lookupIdx_recs_none rs k hlv]
      rw [ih (fun rs₁ h₁ => hw rs₁ (by simp [h₁]))]
      simp [snapVal, hlv]
    | some v =>
      obtain ⟨o, ho, hread⟩ :=
        lookupIdx_recs_some e rs k v (hw rs (by simp)) hlv
      rw [hlr.2, hlr.1, ho]
      by_cases ht : v = e.tombStone
      · rw [if_pos ht] at hread
        simp [hread, snapVal, hlv, getResOf, ht]
      · rw [if_neg ht] at hread
        simp [hread, snapVal, hlv, getResOf, ht]

theorem lastVal_append (k : Bytes) (rs₁ rs₂ : LogAbs) :
    lastVal k (rs₁ ++ rs₂)
      = match lastVal k rs₂ with
        | some v => some v
        | none => lastVal k rs₁ := by
  induction rs₁ with
  | nil => cases h : lastVal k rs₂ <;> simp [lastVal, h]
  | cons hd tl ih =>
    obtain ⟨k₁, v₁⟩ := hd
    show lastVal k ((k₁, v₁) :: (tl ++ rs₂)) = _
    simp only [lastVal]
    rw [ih]
    cases h : lastVal k rs₂ <;> cases h₂ : lastVal k tl <;> simp [lastVal, h, h₂]

theorem snapVal_append (k : Bytes) (l₁ l₂ : List LogAbs) :
    snapVal k (l₁ ++ l₂)
      = match snapVal k l₁ with
        | some v => some v
        | none => snapVal k l₂ := by
  induction l₁ with
  | nil => cases h : snapVal k l₂ <;> simp [snapVal, h]
  | cons hd tl ih =>
    show snapVal k (hd :: (tl ++ l₂)) = _
    simp only [snapVal]
    rw [ih]
    cases h : snapVal k l₂ <;> cases h₂ : lastVal k hd <;> simp [snapVal, h, h₂]

theorem snapVal_reverse (k : Bytes) (rss : List LogAbs) :
    snapVal k rss.reverse = lastVal k (flattenRecs rss) := by
  induction rss with
  | nil => rfl
  | cons rs rest ih =>
    rw [List.reverse_cons, snapVal_append]
    show _ = lastVal k (rs ++ flattenRecs rest)
    rw [lastVal_append, ih]
    cases h : lastVal k (flattenRecs rest) <;> cases h₂ : lastVal k rs <;>
      simp [snapVal, h, h₂]

/-- Central correspondence: on a well-formed engine, `Get` of a valid key is
resolved by the latest record for that key in the engine's full history
(sealed segments oldest-first, then the active segment), with the tombstone
mapped to not-found. -/
theorem find_eq_hist (e : Engine) (rss : List LogAbs) (ra : LogAbs)
    (G : GoodLogs e rss ra) (W : CfgWf (cfgOf e)) (k : Bytes) (hk : ValidKey e k) :
    findValueInLogs e k = getResOf e (lastVal k (flattenRecs rss ++ ra)) := by
  obtain ⟨hseal, hact, hwfs, hwfa⟩ := G
  unfold findValueInLogs
  rw [if_pos hk]
  have hwa : ∀ r ∈ ra, r.2.length < 4294967296 := recsWf_values _ _ W hwfa
  cases hlv : lastVal k ra with
  | some v =>
    obtain ⟨o, ho, hread⟩ := lookupIdx_recs_some e ra k v hwa hlv
    rw [hact.2.1, hact.1, ho, lastVal_append, hlv]
    by_cases ht : v = e.tombStone
    · rw [if_pos ht] at hread
      simp [hread, getResOf, ht]
    · rw [if_neg ht] at hread
      simp [hread, getResOf, ht]
  | none =>
    rw [hact.2.1, lookupIdx_recs_none ra k hlv]
    rw [findInReadLogs_eq e k e.readLogs.reverse rss.reverse
      (List.forall₂_reverse_iff.2 hseal)
      (fun rs h₁ => recsWf_values _ _ W (hwfs rs (List.mem_reverse.1 h₁)))]
    rw [snapVal_reverse, lastVal_append, hlv]

/-! ### Preservation of the correspondence by Put/Delete -/

theorem buildIndex_append (rs₁ rs₂ : LogAbs) :
    ∀ (pos : Nat) (idx : List (Bytes × Nat)),
      buildIndex pos (rs₁ ++ rs₂) idx
        = buildIndex (pos + sizeRecs rs₁) rs₂ (buildIndex pos rs₁ idx) := by
  induction rs₁ with
  | nil => intro pos idx; simp [buildIndex, sizeRecs]
  | cons hd tl ih =>
    intro pos idx
    obtain ⟨k, v⟩ := hd
    show buildIndex (pos + (8 + k.length + v.length)) (tl ++ rs₂) _ = _
    rw [ih]
    have : pos + (8 + k.length + v.length) + sizeRecs tl
        = pos + sizeRecs ((k, v) :: tl) := by
      show _ = pos + ((8 + k.length + v.length) + sizeRecs tl)
      omega
    rw [this]
    rfl

theorem indexOfRecs_snoc (rs : LogAbs) (k v : Bytes) :
    indexOfRecs (rs ++ [(k, v)])
      = upsert (indexOfRecs rs) k (sizeRecs rs + 4 + k.length) := by
  rw [indexOfRecs, buildIndex_append]
  simp [buildIndex, indexOfRecs]

theorem flattenRecs_append (l₁ l₂ : List LogAbs) :
    flattenRecs (l₁ ++ l₂) = flattenRecs l₁ ++ flattenRecs l₂ := by
  induction l₁ with
  | nil => simp [flattenRecs]
  | cons hd tl ih => simp [flattenRecs, ih]

theorem cfgOf_appendKeyValue (e : Engine) (k v : Bytes) :
    cfgOf (appendKeyValue e k v) = cfgOf e := by
  by_cases h : e.maxLogBytes ≤ e.writeLog.size <;> simp [appendKeyValue, cfgOf, h]

/-- appendKeyValue preserves the segment/record correspondence and appends
exactly one record to the engine's flattened history. -/
theorem appendKeyValue_hist (e : Engine) (rss : List LogAbs) (ra : LogAbs) (k v : Bytes)
    (G : GoodLogs e rss ra)
    (hk : k ≠ [] ∧ k.length ≤ e.maxKeyBytes)
    (hv : v.length ≤ e.maxLogBytes ∨ v = e.tombStone) :
    ∃ rss₁ ra₁, GoodLogs (appendKeyValue e k v) rss₁ ra₁ ∧
      flattenRecs rss₁ ++ ra₁ = (flattenRecs rss ++ ra) ++ [(k, v)] := by
  obtain ⟨hseal, hact, hwfs, hwfa⟩ := G
  have hcfg : cfgOf (appendKeyValue e k v) = cfgOf e := cfgOf_appendKeyValue e k v
  by_cases hrot : e.maxLogBytes ≤ e.writeLog.size
  · refine ⟨rss ++ [ra], [(k, v)], ⟨?_, ?_, ?_, ?_⟩, ?_⟩
    · show List.Forall₂ LogMatches (appendKeyValue e k v).readLogs (rss ++ [ra])
      have : (appendKeyValue e k v).readLogs = e.readLogs ++ [sealOf e.writeLog] := by
        simp [appendKeyValue, hrot]
      rw [this]
      exact List.rel_append hseal
        (List.Forall₂.cons ⟨hact.1, hact.2.1⟩ List.Forall₂.nil)
    · show WLogMatches (appendKeyValue e k v).writeLog [(k, v)]
      have hw : (appendKeyValue e k v).writeLog
          = ⟨e.readLogs.length + 2, ([] : Bytes) ++ le32 k.length ++ k ++ (le32 v.length ++ v),
             upsert [] k (([] : Bytes) ++ le32 k.length ++ k).length,
             0 + (4 + k.length) + (4 + v.length)⟩ := by
        simp [appendKeyValue, hrot]
      rw [hw]
      refine ⟨?_, ?_, ?_⟩
      · show ([] : Bytes) ++ le32 k.length ++ k ++ (le32 v.length ++ v) = encodeRecs [(k, v)]
        simp [encodeRecs, encodeRecord, List.append_assoc]
      · show upsert [] k (([] : Bytes) ++ le32 k.length ++ k).length = indexOfRecs [(k, v)]
        simp [upsert, indexOfRecs, buildIndex, List.length_append, le32_length]
      · show 0 + (4 + k.length) + (4 + v.length) = sizeRecs [(k, v)]
        simp [sizeRecs]
        omega
    · intro rs hrs
      rw [hcfg]
      rcases List.mem_append.1 hrs with h | h
      · exact hwfs rs h
      · rw [List.mem_singleton.1 h]; exact hwfa
    · rw [hcfg]
      intro r hr
      rw [List.mem_singleton.1 hr]
      exact ⟨hk.1, hk.2, hv⟩
    · rw [flattenRecs_append]
      simp [flattenRecs]
  · refine ⟨rss, ra ++ [(k, v)], ⟨?_, ?_, ?_, ?_⟩, ?_⟩
    · show List.Forall₂ LogMatches (appendKeyValue e k v).readLogs rss
      have : (appendKeyValue e k v).readLogs = e.readLogs := by
        simp [appendKeyValue, hrot]
      rw [this]
      exact hseal
    · show WLogMatches (appendKeyValue e k v).writeLog (ra ++ [(k, v)])
      have hw : (appendKeyValue e k v).writeLog
          = ⟨e.writeLog.id, e.writeLog.content ++ le32 k.length ++ k ++ (le32 v.length ++ v),
             upsert e.writeLog.index k (e.writeLog.content ++ le32 k.length ++ k).length,
             e.writeLog.size + (4 + k.length) + (4 + v.length)⟩ := by
        simp [appendKeyValue, hrot]
      rw [hw]
      refine ⟨?_, ?_, ?_⟩
      · show e.writeLog.content ++ le32 k.length ++ k ++ (le32 v.length ++ v)
            = encodeRecs (ra ++ [(k, v)])
        rw [hact.1, encodeRecs_append]
        simp [encodeRecs, encodeRecord, List.append_assoc]
      · show upsert e.writeLog.index k (e.writeLog.content ++ le32 k.length ++ k).length
            = indexOfRecs (ra ++ [(k, v)])
        rw [hact.2.1, hact.1, indexOfRecs_snoc]
        congr 1
        simp only [List.length_append, le32_length, encodeRecs_length]
      · show e.writeLog.size + (4 + k.length) + (4 + v.length) = sizeRecs (ra ++ [(k, v)])
        rw [hact.2.2, sizeRecs_append]
        simp [sizeRecs]
        omega
    · intro rs hrs
      rw [hcfg]
      exact hwfs rs hrs
    · rw [hcfg]
      intro r hr
      rcases List.mem_append.1 hr with h | h
      · exact hwfa r h
      · rw [List.mem_singleton.1 h]
        exact ⟨hk.1, hk.2, hv⟩
    · simp [List.append_assoc]

/-! ### Identifier discipline -/

/-- GoodIds: sealed identifiers are `1, …, n` in list order and the active
identifier is `n + 1`. -/
def GoodIds (e : Engine) : Prop :=
  e.readLogs.map (·.id) = (List.range e.readLogs.length).map (· + 1) ∧
    e.writeLog.id = e.readLogs.length + 1

theorem appendKeyValue_ids (e : Engine) (k v : Bytes) (I : GoodIds e) :
    GoodIds (appendKeyValue e k v) := by
  by_cases hrot : e.maxLogBytes ≤ e.writeLog.size
  · have hr : (appendKeyValue e k v).readLogs = e.readLogs ++ [sealOf e.writeLog] := by
      simp [appendKeyValue, hrot]
    have hw : (appendKeyValue e k v).writeLog.id = e.readLogs.length + 2 := by
      simp [appendKeyValue, hrot]
    constructor
    · rw [hr]
      simp only [List.map_append, List.map_cons, List.map_nil, List.length_append,
        List.length_cons, List.length_nil]
      rw [I.1]
      have hid : (sealOf e.writeLog).id = e.readLogs.length + 1 := I.2
      rw [hid, List.range_succ]
      simp
    · rw [hw, hr]
      simp
  · have hr : (appendKeyValue e k v).readLogs = e.readLogs := by
      simp [appendKeyValue, hrot]
    have hw : (appendKeyValue e k v).writeLog.id = e.writeLog.id := by
      simp [appendKeyValue, hrot]
    exact ⟨by rw [hr]; exact I.1, by rw [hw, hr]; exact I.2⟩

/-! ### Operation histories -/

/-- CValidKey is `ValidKey` phrased on the configuration alone. -/
def CValidKey (c : Cfg) (k : Bytes) : Prop :=
  k ≠ [] ∧ k.length ≤ c.maxKeyBytes

instance (c : Cfg) (k : Bytes) : Decidable (CValidKey c k) :=
  inferInstanceAs (Decidable (_ ∧ _))

/-- CValidValue is `ValidValue` phrased on the configuration alone. -/
def CValidValue (c : Cfg) (v : Bytes) : Prop :=
  v ≠ c.tombStone ∧ v.length ≤ c.maxLogBytes

instance (c : Cfg) (v : Bytes) : Decidable (CValidValue c v) :=
  inferInstanceAs (Decidable (_ ∧ _))

instance (c : Cfg) : Decidable (CfgWf c) :=
  inferInstanceAs (Decidable (_ ∧ _ ∧ _ ∧ _ ∧ _))

/-- opRec: the record an operation appends, if its validation passes
(configuration is immutable, so validation depends only on `Cfg`). -/
def opRec (c : Cfg) : Op → Option (Bytes × Bytes)
  | .put k v =>
    if CValidKey c k then
      if CValidValue c v then some (k, v) else none
    else none
  | .del k =>
    if CValidKey c k then some (k, c.tombStone) else none

/-- histOf: the records a workload appends, in order. -/
def histOf (c : Cfg) (ops : List Op) : LogAbs := ops.filterMap (opRec c)

theorem cfgOf_applyOp (e : Engine) (op : Op) : cfgOf (applyOp e op) = cfgOf e := by
  cases op with
  | put k v =>
    show cfgOf (match putKeyValue e k v with | .ok e₁ => e₁ | .err _ => e) = cfgOf e
    unfold putKeyValue
    by_cases hk : ValidKey e k
    · rw [if_pos hk]
      by_cases hv : ValidValue e v
      · rw [if_pos hv]; exact cfgOf_appendKeyValue e k v
      · rw [if_neg hv]
    · rw [if_neg hk]
  | del k =>
    show cfgOf (match deleteKey e k with | .ok e₁ => e₁ | .err _ => e) = cfgOf e
    unfold deleteKey
    by_cases hk : ValidKey e k
    · rw [if_pos hk]; exact cfgOf_appendKeyValue e k e.tombStone
    · rw [if_neg hk]

/-- applyOp preserves the correspondence and appends the operation's record
(if validation passes) to the flattened history. -/
theorem applyOp_hist (e : Engine) (rss : List LogAbs) (ra : LogAbs) (op : Op)
    (G : GoodLogs e rss ra) :
    ∃ rss₁ ra₁, GoodLogs (applyOp e op) rss₁ ra₁ ∧
      flattenRecs rss₁ ++ ra₁ = (flattenRecs rss ++ ra) ++ (opRec (cfgOf e) op).toList := by
  cases op with
  | put k v =>
    show ∃ rss₁ ra₁,
        GoodLogs (match putKeyValue e k v with | .ok e₁ => e₁ | .err _ => e) rss₁ ra₁ ∧ _
    unfold putKeyValue
    by_cases hk : ValidKey e k
    · by_cases hv : ValidValue e v
      · rw [if_pos hk, if_pos hv]
        obtain ⟨rss₁, ra₁, G₁, hh⟩ :=
          appendKeyValue_hist e rss ra k v G hk (Or.inl hv.2)
        refine ⟨rss₁, ra₁, G₁, ?_⟩
        rw [hh]
        have : opRec (cfgOf e) (.put k v) = some (k, v) := by
          simp only [opRec]
          rw [if_pos (show CValidKey (cfgOf e) k from hk),
            if_pos (show CValidValue (cfgOf e) v from hv)]
        rw [this]
        rfl
      · rw [if_pos hk, if_neg hv]
        refine ⟨rss, ra, G, ?_⟩
        have : opRec (cfgOf e) (.put k v) = none := by
          simp only [opRec]
          rw [if_pos (show CValidKey (cfgOf e) k from hk),
            if_neg (show ¬ CValidValue (cfgOf e) v from hv)]
        rw [this]
        simp
    · rw [if_neg hk]
      refine ⟨rss, ra, G, ?_⟩
      have : opRec (cfgOf e) (.put k v) = none := by
        simp only [opRec]
        rw [if_neg (show ¬ CValidKey (cfgOf e) k from hk)]
      rw [this]
      simp
  | del k =>
    show ∃ rss₁ ra₁,
        GoodLogs (match deleteKey e k with | .ok e₁ => e₁ | .err _ => e) rss₁ ra₁ ∧ _
    unfold deleteKey
    by_cases hk : ValidKey e k
    · rw [if_pos hk]
      obtain ⟨rss₁, ra₁, G₁, hh⟩ :=
        appendKeyValue_hist e rss ra k e.tombStone G hk (Or.inr rfl)
      refine ⟨rss₁, ra₁, G₁, ?_⟩
      rw [hh]
      have : opRec (cfgOf e) (.del k) = some (k, e.tombStone) := by
        simp only [opRec]
        rw [if_pos (show CValidKey (cfgOf e) k from hk)]
        rfl
      rw [this]
      rfl
    · rw [if_neg hk]
      refine ⟨rss, ra, G, ?_⟩
      have : opRec (cfgOf e) (.del k) = none := by
        simp only [opRec]
        rw [if_neg (show ¬ CValidKey (cfgOf e) k from hk)]
      rw [this]
      simp

theorem applyOp_ids (e : Engine) (op : Op) (I : GoodIds e) : GoodIds (applyOp e op) := by
  cases op with
  | put k v =>
    show GoodIds (match putKeyValue e k v with | .ok e₁ => e₁ | .err _ => e)
    unfold putKeyValue
    by_cases hk : ValidKey e k
    · rw [if_pos hk]
      by_cases hv : ValidValue e v
      · rw [if_pos hv]; exact appendKeyValue_ids e k v I
      · rw [if_neg hv]; exact I
    · rw [if_neg hk]; exact I
  | del k =>
    show GoodIds (match deleteKey e k with | .ok e₁ => e₁ | .err _ => e)
    unfold deleteKey
    by_cases hk : ValidKey e k
    · rw [if_pos hk]; exact appendKeyValue_ids e k e.tombStone I
    · rw [if_neg hk]; exact I

/-- runOps preserves everything, appending the workload's history. -/
theorem runOps_hist (c : Cfg) (ops : List Op) :
    ∀ (e : Engine) (rss : List LogAbs) (ra : LogAbs),
      GoodLogs e rss ra → cfgOf e = c → GoodIds e →
      ∃ rss₁ ra₁, GoodLogs (runOps e ops) rss₁ ra₁ ∧
        flattenRecs rss₁ ++ ra₁ = (flattenRecs rss ++ ra) ++ histOf c ops ∧
        GoodIds (runOps e ops) ∧ cfgOf (runOps e ops) = c := by
  induction ops with
  | nil =>
    intro e rss ra G hc I
    exact ⟨rss, ra, G, by simp [histOf], I, hc⟩
  | cons op rest ih =>
    intro e rss ra G hc I
    obtain ⟨rss₁, ra₁, G₁, hh₁⟩ := applyOp_hist e rss ra op G
    obtain ⟨rss₂, ra₂, G₂, hh₂, I₂, hc₂⟩ :=
      ih (applyOp e op) rss₁ ra₁ G₁ (by rw [cfgOf_applyOp, hc]) (applyOp_ids e op I)
    refine ⟨rss₂, ra₂, G₂, ?_, I₂, hc₂⟩
    show flattenRecs rss₂ ++ ra₂ = _
    rw [hh₂, hh₁, hc]
    have : histOf c (op :: rest) = (opRec c op).toList ++ histOf c rest := by
      unfold histOf
      cases h : opRec c op <;> simp [List.filterMap_cons, h]
    rw [this, List.append_assoc]

theorem mkEngine_good (c : Cfg) : GoodLogs (mkEngine c) [] [] := by
  refine ⟨List.Forall₂.nil, ⟨rfl, rfl, rfl⟩, ?_, ?_⟩
  · intro rs h; cases h
  · intro r h; cases h

theorem mkEngine_ids (c : Cfg) : GoodIds (mkEngine c) := ⟨rfl, rfl⟩

/-- Every engine reached by a workload from a fresh engine satisfies the
correspondence, with history `histOf c ops`, ascending identifiers, and the
starting configuration. -/
theorem runOps_good (c : Cfg) (ops : List Op) :
    ∃ rss ra, GoodLogs (runOps (mkEngine c) ops) rss ra ∧
      flattenRecs rss ++ ra = histOf c ops ∧
      GoodIds (runOps (mkEngine c) ops) ∧ cfgOf (runOps (mkEngine c) ops) = c := by
  obtain ⟨rss, ra, G, hh, I, hc⟩ :=
    runOps_hist c ops (mkEngine c) [] [] (mkEngine_good c) rfl (mkEngine_ids c)
  exact ⟨rss, ra, G, by simpa [flattenRecs] using hh, I, hc⟩

/-! ## Claim C8 — append path and rotation -/

/-- appendKeyValue_shape characterises one `appendKeyValue` step: the sealed
list, identifier, content, index and size of the result as a function of
whether the pre-append size had reached the limit. -/
theorem appendKeyValue_shape (e : Engine) (k v : Bytes) :
    ((appendKeyValue e k v).readLogs
      = if e.maxLogBytes ≤ e.writeLog.size then e.readLogs ++ [sealOf e.writeLog]
        else e.readLogs) ∧
    ((appendKeyValue e k v).writeLog.id
      = if e.maxLogBytes ≤ e.writeLog.size then (appendKeyValue e k v).readLogs.length + 1
        else e.writeLog.id) ∧
    ((appendKeyValue e k v).writeLog.content
      = (if e.maxLogBytes ≤ e.writeLog.size then ([] : Bytes) else e.writeLog.content)
          ++ encodeRecord k v) ∧
    ((appendKeyValue e k v).writeLog.index
      = upsert (if e.maxLogBytes ≤ e.writeLog.size then [] else e.writeLog.index) k
          ((if e.maxLogBytes ≤ e.writeLog.size then ([] : Bytes) else e.writeLog.content).length
            + (4 + k.length))) ∧
    ((appendKeyValue e k v).writeLog.size
      = (if e.maxLogBytes ≤ e.writeLog.size then 0 else e.writeLog.size)
          + (8 + k.length + v.length)) := by
  by_cases hrot : e.maxLogBytes ≤ e.writeLog.size
  · refine ⟨?_, ?_, ?_, ?_, ?_⟩ <;>
      first
      | (simp [appendKeyValue, hrot, encodeRecord, List.length_append, le32_length,
          List.append_assoc]; omega)
      | simp [appendKeyValue, hrot, encodeRecord, List.length_append, le32_length,
          List.append_assoc]
  · refine ⟨?_, ?_, ?_, ?_, ?_⟩ <;>
      first
      | (simp [appendKeyValue, hrot, encodeRecord, List.length_append, le32_length,
          List.append_assoc]; omega)
      | simp [appendKeyValue, hrot, encodeRecord, List.length_append, le32_length,
          List.append_assoc]

/-- C8: in the shared append path, the rotation decision reads the active
size before the new record is written: when `size ≥ maxLogBytes` the active
segment is sealed (appended to the sealed list) and a fresh active segment
with identifier `len(sealed)+1` (the new sealed count) and an empty index is
created; in both cases the record is then written into the current active
segment — its content grows by the encoded record and its size by the
record's byte size, even when that pushes the size past the limit. -/
theorem append_rotation (e : Engine) (k v : Bytes) :
    ((appendKeyValue e k v).readLogs
      = if e.maxLogBytes ≤ e.writeLog.size then e.readLogs ++ [sealOf e.writeLog]
        else e.readLogs) ∧
    ((appendKeyValue e k v).writeLog.id
      = if e.maxLogBytes ≤ e.writeLog.size then (appendKeyValue e k v).readLogs.length + 1
        else e.writeLog.id) ∧
    ((appendKeyValue e k v).writeLog.content
      = (if e.maxLogBytes ≤ e.writeLog.size then ([] : Bytes) else e.writeLog.content)
          ++ encodeRecord k v) ∧
    ((appendKeyValue e k v).writeLog.index
      = upsert (if e.maxLogBytes ≤ e.writeLog.size then [] else e.writeLog.index) k
          ((if e.maxLogBytes ≤ e.writeLog.size then ([] : Bytes) else e.writeLog.content).length
            + (4 + k.length))) ∧
    ((appendKeyValue e k v).writeLog.size
      = (if e.maxLogBytes ≤ e.writeLog.size then 0 else e.writeLog.size)
          + (8 + k.length + v.length)) :=
  appendKeyValue_shape e k v

/-! ## Claim C1 — round-trip -/

theorem appendKeyValue_cfg (e : Engine) (k v : Bytes) :
    (appendKeyValue e k v).tombStone = e.tombStone ∧
    (appendKeyValue e k v).maxKeyBytes = e.maxKeyBytes ∧
    (appendKeyValue e k v).maxLogBytes = e.maxLogBytes := by
  by_cases hrot : e.maxLogBytes ≤ e.writeLog.size <;>
    exact ⟨by simp [appendKeyValue, hrot], by simp [appendKeyValue, hrot],
      by simp [appendKeyValue, hrot]⟩

theorem find_writeLog_hit (e : Engine) (k : Bytes) (hk : ValidKey e k) (off : Nat)
    (v : Bytes) (hlook : lookupIdx e.writeLog.index k = some off)
    (hread : readValueFromFile e e.writeLog.content off = some v) :
    findValueInLogs e k = .ok v := by
  unfold findValueInLogs
  rw [if_pos hk]
  simp only [hlook, hread]

/-- C1 (amended): for every key and value accepted by the validators whose
byte length moreover fits the 32-bit on-disk length prefix, `Put(k,v)`
succeeds from any engine state — in particular any state reachable by
Put/Delete — and an immediately following `Get(k)` returns `v`.  (The claim
as frozen omits the `len(v) < 2^32` bound; see the counterexample.) -/
theorem put_get_roundtrip (e : Engine) (k v : Bytes)
    (hk : ValidKey e k) (hv : ValidValue e v) (hlen : v.length < 4294967296) :
    ∃ e₁, putKeyValue e k v = .ok e₁ ∧ findValueInLogs e₁ k = .ok v := by
  refine ⟨appendKeyValue e k v, ?_, ?_⟩
  · unfold putKeyValue
    rw [if_pos hk, if_pos hv]
  · obtain ⟨-, -, hcont, hidx, -⟩ := appendKeyValue_shape e k v
    refine find_writeLog_hit _ _
      ⟨hk.1, by rw [(appendKeyValue_cfg e k v).2.1]; exact hk.2⟩
      ((if e.maxLogBytes ≤ e.writeLog.size then ([] : Bytes)
          else e.writeLog.content).length + (4 + k.length)) v ?_ ?_
    · rw [hidx, lookupIdx_upsert, if_pos rfl]
    · rw [hcont]
      have hsplit :
          (if e.maxLogBytes ≤ e.writeLog.size then ([] : Bytes) else e.writeLog.content)
              ++ encodeRecord k v
            = ((if e.maxLogBytes ≤ e.writeLog.size then ([] : Bytes) else e.writeLog.content)
                ++ le32 k.length ++ k) ++ (le32 v.length ++ v) ++ [] := by
        simp [encodeRecord, List.append_assoc]
      have hoff :
          (if e.maxLogBytes ≤ e.writeLog.size then ([] : Bytes)
            else e.writeLog.content).length + (4 + k.length)
          = ((if e.maxLogBytes ≤ e.writeLog.size then ([] : Bytes)
              else e.writeLog.content) ++ le32 k.length ++ k).length := by
        simp only [List.length_append, le32_length]
        omega
      have hrd := readDataFile_value
        ((if e.maxLogBytes ≤ e.writeLog.size then ([] : Bytes) else e.writeLog.content)
          ++ le32 k.length ++ k) v [] hlen
      unfold readValueFromFile
      rw [hsplit, hoff]
      simp only [hrd]
      rw [if_neg (by rw [(appendKeyValue_cfg e k v).1]; exact hv.1)]

/-- Witness for C1's amended theorem at the default configuration. -/
theorem put_get_roundtrip_witness :
    ∃ e₁, putKeyValue (mkEngine defaultCfg) [97] [98] = .ok e₁ ∧
      findValueInLogs e₁ [97] = .ok [98] :=
  put_get_roundtrip (mkEngine defaultCfg) [97] [98] (by decide) (by decide) (by decide)

/-- bigValue: a value of exactly 2^32 zero bytes. -/
def bigValue : Bytes := List.replicate 4294967296 0

/-- cexC1Engine: a fresh engine configured with `WithMaxLogSize(2^32)`
(legal: the option only requires a positive size). -/
def cexC1Engine : Engine := mkEngine ⟨4294967296, 1024, defaultTombstone⟩

theorem bigValue_length : bigValue.length = 4294967296 :=
  List.length_replicate 4294967296 0

theorem bigValue_ne_tomb : bigValue ≠ defaultTombstone := by
  intro h
  have hl := congrArg List.length h
  rw [bigValue_length] at hl
  have : defaultTombstone.length = 39 := by decide
  omega

/-- roundtrip_truncation: on a fresh-looking active segment, a `Put` of a
valid value of exactly 2^32 bytes succeeds but writes the length prefix
`uint32(2^32) = 0`, so the following `Get` of the key returns the empty
value.  The value stays abstract here; the counterexample instantiates it. -/
theorem roundtrip_truncation (e : Engine) (k v : Bytes)
    (hk : ValidKey e k) (hv : ValidValue e v) (hlv : v.length = 4294967296)
    (hrot : ¬ e.maxLogBytes ≤ e.writeLog.size)
    (hwc : e.writeLog.content = []) (hwi : e.writeLog.index = [])
    (ht : e.tombStone ≠ []) :
    ∃ e₁, putKeyValue e k v = .ok e₁ ∧ findValueInLogs e₁ k = .ok [] := by
  refine ⟨appendKeyValue e k v, ?_, ?_⟩
  · unfold putKeyValue
    rw [if_pos hk, if_pos hv]
  · obtain ⟨-, -, hcont, hidx, -⟩ := appendKeyValue_shape e k v
    simp only [if_neg hrot] at hcont hidx
    rw [hwc] at hcont hidx
    rw [hwi] at hidx
    have hvk₁ : ValidKey (appendKeyValue e k v) k :=
      ⟨hk.1, by rw [(appendKeyValue_cfg e k v).2.1]; exact hk.2⟩
    refine find_writeLog_hit _ _ hvk₁ (([] : Bytes).length + (4 + k.length)) [] ?_ ?_
    · rw [hidx, lookupIdx_upsert, if_pos rfl]
    · rw [hcont]
      have hshape : ([] : Bytes) ++ encodeRecord k v
          = (le32 k.length ++ k) ++ (le32 v.length ++ v) := by
        simp [encodeRecord, List.append_assoc]
      have hlen₁ : ((le32 k.length ++ k) ++ (le32 v.length ++ v)).length
          = 8 + k.length + 4294967296 := by
        simp only [List.length_append, le32_length, hlv]
        omega
      have h₅ : (le32 k.length ++ k).length = 4 + k.length := by
        simp only [List.length_append, le32_length]
      have hdrop : ((le32 k.length ++ k) ++ (le32 v.length ++ v)).drop (4 + k.length)
          = le32 v.length ++ v := by
        rw [← h₅, List.drop_left]
      have hdec : decodeLE32 (le32 v.length ++ v) = 0 := by
        rw [decodeLE32_le32, hlv]
      have hrd : readDataFile (([] : Bytes) ++ encodeRecord k v) (4 + k.length)
          = some ([], 4 + k.length + 4) := by
        unfold readDataFile
        rw [hshape, hlen₁, hdrop, hdec]
        rw [if_pos (by omega), if_pos (by omega)]
        rw [List.take_zero]
      have hoff : (([] : Bytes)).length + (4 + k.length) = 4 + k.length := by
        simp
      rw [hoff]
      unfold readValueFromFile
      simp only [hrd]
      rw [if_neg (by
        rw [(appendKeyValue_cfg e k v).1]
        intro h
        exact ht h.symm)]

/-- C1 counterexample: with `max_segment_bytes = 2^32`, a value of 2^32 bytes
passes `validateValue` and `Put` succeeds, but its on-disk length prefix is
`uint32(2^32) = 0`, so the immediately following `Get` returns the empty
value instead of `v`: the claim as frozen fails at this input. -/
theorem put_get_roundtrip_cex :
    ValidKey cexC1Engine [97] ∧ ValidValue cexC1Engine bigValue ∧
    ∃ e₁, putKeyValue cexC1Engine [97] bigValue = .ok e₁ ∧
      findValueInLogs e₁ [97] = .ok [] ∧ ([] : Bytes) ≠ bigValue := by
  have hvk : ValidKey cexC1Engine [97] := ⟨by simp, by show (1 : Nat) ≤ 1024; omega⟩
  have hvv : ValidValue cexC1Engine bigValue :=
    ⟨bigValue_ne_tomb, le_of_eq bigValue_length⟩
  obtain ⟨e₁, hput, hget⟩ := roundtrip_truncation cexC1Engine [97] bigValue hvk hvv
    bigValue_length (by show ¬ (4294967296 ≤ 0); omega) rfl rfl
    (by show defaultTombstone ≠ []; decide)
  refine ⟨hvk, hvv, e₁, hput, hget, ?_⟩
  intro h
  have hl := congrArg List.length h
  rw [bigValue_length] at hl
  simp at hl

/-! ## Claim C10 — Delete skips value validation -/

/-- smallLogEngine: configured via `WithMaxLogSize(5)`, so the 39-byte default
tombstone is longer than `maxLogBytes` and would fail `validateValue`. -/
def smallLogEngine : Engine := mkEngine ⟨5, 1024, defaultTombstone⟩

/-- C10: `Delete` runs only key validation (never value validation): it can
never return the value-invalid error, and for a valid key it appends the
tombstone record — demonstrated also at a configuration whose tombstone is
longer than `maxLogBytes`, where `validateValue` would reject the tombstone
yet `Delete` succeeds. -/
theorem delete_skips_value_validation (e : Engine) (k : Bytes) :
    deleteKey e k ≠ .err .valueInvalid ∧
    deleteKey e k
      = (if ValidKey e k then .ok (appendKeyValue e k e.tombStone)
         else .err .keyInvalid) ∧
    deleteKey smallLogEngine [97]
      = .ok (appendKeyValue smallLogEngine [97] smallLogEngine.tombStone) ∧
    ¬ ValidValue smallLogEngine smallLogEngine.tombStone := by
  refine ⟨?_, rfl, by decide, by decide⟩
  unfold deleteKey
  by_cases hk : ValidKey e k
  · rw [if_pos hk]
    intro h
    cases h
  · rw [if_neg hk]
    intro h
    cases h

/-! ## Claim C7 — Put validation errors -/

/-- C7 (amended): `Put` fails with the key-invalid error exactly when the key
is empty or longer than `maxKeyBytes`; it fails with the value-invalid error
exactly when the key is VALID and the value is longer than `maxLogBytes` or
equal to the tombstone (the key check runs first, so an invalid key masks an
invalid value — the spec's unconditional iff is refuted by
`put_validation_cex`); on any validation failure the engine is unchanged. -/
theorem put_validation (e : Engine) (k v : Bytes) :
    (putKeyValue e k v = .err .keyInvalid ↔ (k = [] ∨ e.maxKeyBytes < k.length)) ∧
    (putKeyValue e k v = .err .valueInvalid ↔
      ¬ (k = [] ∨ e.maxKeyBytes < k.length) ∧
        (e.maxLogBytes < v.length ∨ v = e.tombStone)) ∧
    ∀ er, putKeyValue e k v = .err er → applyOp e (.put k v) = e := by
  have hknot : ¬ ValidKey e k ↔ (k = [] ∨ e.maxKeyBytes < k.length) := by
    unfold ValidKey
    rw [not_and_or, not_not, Nat.not_le]
  have hvnot : ¬ ValidValue e v ↔ (e.maxLogBytes < v.length ∨ v = e.tombStone) := by
    unfold ValidValue
    rw [not_and_or, not_not, Nat.not_le, Or.comm]
  refine ⟨?_, ?_, ?_⟩
  · rw [← hknot]
    unfold putKeyValue
    by_cases hk : ValidKey e k
    · rw [if_pos hk]
      constructor
      · intro h
        by_cases hv : ValidValue e v
        · rw [if_pos hv] at h
          cases h
        · rw [if_neg hv] at h
          cases h
      · intro h
        exact absurd hk h
    · rw [if_neg hk]
      exact ⟨fun _ => hk, fun _ => rfl⟩
  · rw [← hknot, ← hvnot, not_not]
    unfold putKeyValue
    by_cases hk : ValidKey e k
    · rw [if_pos hk]
      by_cases hv : ValidValue e v
      · rw [if_pos hv]
        constructor
        · intro h
          cases h
        · intro ⟨h₁, h₂⟩
          exact absurd hv h₂
      · rw [if_neg hv]
        exact ⟨fun _ => ⟨hk, hv⟩, fun _ => rfl⟩
    · rw [if_neg hk]
      constructor
      · intro h
        cases h
      · intro ⟨h₁, h₂⟩
        exact absurd h₁ hk
  · intro er h
    show (match putKeyValue e k v with | .ok e₁ => e₁ | .err _ => e) = e
    rw [h]

/-- C7 counterexample to the spec's unconditional value-invalid iff: with an
empty key and the tombstone as value, the spec's right-hand side holds (the
value equals the tombstone) but `Put` reports the KEY error, not the value
error — key validation masks value validation. -/
theorem put_validation_cex :
    putKeyValue (mkEngine defaultCfg) [] defaultTombstone = .err .keyInvalid ∧
    ¬ (putKeyValue (mkEngine defaultCfg) [] defaultTombstone = .err .valueInvalid ↔
        ((mkEngine defaultCfg).maxLogBytes < defaultTombstone.length ∨
          defaultTombstone = (mkEngine defaultCfg).tombStone)) := by
  decide

/-! ## Claim C2 — last-writer-wins and lookup order -/

/-- opKey: the key an operation addresses. -/
def opKey : Op → Bytes
  | .put k _ => k
  | .del k => k

theorem opRec_key (c : Cfg) (op : Op) (r : Bytes × Bytes) (h : opRec c op = some r) :
    r.1 = opKey op := by
  cases op with
  | put k v =>
    simp only [opRec] at h
    by_cases hk : CValidKey c k
    · rw [if_pos hk] at h
      by_cases hv : CValidValue c v
      · rw [if_pos hv] at h
        cases h
        rfl
      · rw [if_neg hv] at h
        cases h
    · rw [if_neg hk] at h
      cases h
  | del k =>
    simp only [opRec] at h
    by_cases hk : CValidKey c k
    · rw [if_pos hk] at h
      cases h
      rfl
    · rw [if_neg hk] at h
      cases h

theorem lastVal_of_no_key (k : Bytes) (rs : LogAbs) (h : ∀ r ∈ rs, r.1 ≠ k) :
    lastVal k rs = none := by
  induction rs with
  | nil => rfl
  | cons r rest ih =>
    obtain ⟨k₁, v₁⟩ := r
    show lastVal k ((k₁, v₁) :: rest) = none
    rw [lastVal, ih (fun r hr => h r (by simp [hr]))]
    rw [if_neg (h (k₁, v₁) (by simp))]

theorem histOf_append (c : Cfg) (l₁ l₂ : List Op) :
    histOf c (l₁ ++ l₂) = histOf c l₁ ++ histOf c l₂ := by
  unfold histOf
  exact List.filterMap_append l₁ l₂ (opRec c)

theorem validKey_of_cfg (e : Engine) (c : Cfg) (hc : cfgOf e = c) (k : Bytes)
    (hk : CValidKey c k) : ValidKey e k := by
  refine ⟨hk.1, ?_⟩
  have : e.maxKeyBytes = c.maxKeyBytes := by rw [← hc]; rfl
  rw [this]
  exact hk.2

theorem tombStone_of_cfg (e : Engine) (c : Cfg) (hc : cfgOf e = c) :
    e.tombStone = c.tombStone := by
  rw [← hc]
  rfl

/-- C2: for any workload `pre ++ [Put(k, vn)] ++ post` in which `post`
touches only other keys, `Get(k)` on the resulting engine returns `vn`
(`v₁, …, v_{n-1}` are arbitrary earlier writes inside `pre`, so this covers
any `Put(k,v₁), …, Put(k,vn)` sequence interleaved with other keys and
crossing rotation boundaries); moreover the sealed list is ordered so that
its identifiers are `1, …, n` ascending, hence the source's back-to-front
walk of `readLogs` — active segment first, then sealed segments — scans the
segments from the highest identifier to the lowest, the first hit resolving
the lookup. -/
theorem last_writer_wins (c : Cfg) (W : CfgWf c) (pre post : List Op) (k vn : Bytes)
    (hk : CValidKey c k) (hv : CValidValue c vn)
    (hpost : ∀ op ∈ post, opKey op ≠ k) :
    findValueInLogs (runOps (mkEngine c) (pre ++ [.put k vn] ++ post)) k = .ok vn ∧
    (runOps (mkEngine c) (pre ++ [.put k vn] ++ post)).readLogs.map (·.id)
      = (List.range (runOps (mkEngine c) (pre ++ [.put k vn] ++ post)).readLogs.length).map
          (· + 1) := by
  obtain ⟨rss, ra, G, hh, I, hc⟩ := runOps_good c (pre ++ [.put k vn] ++ post)
  have hW : CfgWf (cfgOf (runOps (mkEngine c) (pre ++ [.put k vn] ++ post))) := by
    rw [hc]; exact W
  have hfind := find_eq_hist _ rss ra G hW k
    (validKey_of_cfg _ c hc k hk)
  rw [hh] at hfind
  have hhist : lastVal k (histOf c (pre ++ [.put k vn] ++ post)) = some vn := by
    rw [histOf_append, histOf_append, lastVal_append, lastVal_append]
    have hnone : lastVal k (histOf c post) = none := by
      refine lastVal_of_no_key k _ (fun r hr => ?_)
      obtain ⟨op, hop, hrec⟩ := List.mem_filterMap.1 hr
      rw [opRec_key c op r hrec]
      exact hpost op hop
    have hone : histOf c [Op.put k vn] = [(k, vn)] := by
      unfold histOf
      rw [List.filterMap_cons]
      have : opRec c (.put k vn) = some (k, vn) := by
        simp only [opRec]
        rw [if_pos hk, if_pos hv]
      rw [this]
      rfl
    rw [hnone, hone]
    show (match lastVal k [(k, vn)] with
          | some v => some v
          | none => lastVal k (histOf c pre)) = some vn
    have : lastVal k [(k, vn)] = some vn := by
      simp [lastVal]
    rw [this]
  rw [hhist] at hfind
  refine ⟨?_, ?_⟩
  · rw [hfind]
    show (if vn = _ then GetRes.notFound else GetRes.ok vn) = GetRes.ok vn
    rw [if_neg (by rw [tombStone_of_cfg _ c hc]; exact hv.1)]
  · exact I.1

/-- Witness for C2 at the default configuration. -/
theorem last_writer_wins_witness :
    findValueInLogs
        (runOps (mkEngine defaultCfg) ([] ++ [.put [97] [98]] ++ [])) [97] = .ok [98] ∧
    (runOps (mkEngine defaultCfg) ([] ++ [.put [97] [98]] ++ [])).readLogs.map (·.id)
      = (List.range (runOps (mkEngine defaultCfg)
          ([] ++ [.put [97] [98]] ++ [])).readLogs.length).map (· + 1) :=
  last_writer_wins defaultCfg (by decide) [] [] [97] [98] (by decide) (by decide)
    (by intro op h; cases h)

/-! ## Claim C4 — delete hides until the next put -/

theorem lastVal_all_tomb (k t : Bytes) (rs : LogAbs)
    (h : ∀ r ∈ rs, r.1 = k → r.2 = t) :
    lastVal k rs = none ∨ lastVal k rs = some t := by
  induction rs with
  | nil => exact Or.inl rfl
  | cons r rest ih =>
    obtain ⟨k₁, v₁⟩ := r
    show (lastVal k ((k₁, v₁) :: rest) = none ∨ _)
    rw [lastVal]
    rcases ih (fun r hr hk₁ => h r (by simp [hr]) hk₁) with htl | htl
    · rw [htl]
      by_cases hk₁ : k₁ = k
      · rw [if_pos hk₁]
        have hv₁ : v₁ = t := h (k₁, v₁) (by simp) hk₁
        exact Or.inr (by rw [hv₁])
      · rw [if_neg hk₁]
        exact Or.inl rfl
    · rw [htl]
      exact Or.inr rfl

/-- C4: after `Put(k,v)` then `Delete(k)`, `Get(k)` is not-found and stays
not-found across any further operations that do not `Put` to `k` (further
`Delete(k)` allowed); and `Delete` of any valid key — in particular one
absent from every segment — succeeds. -/
theorem delete_hides (c : Cfg) (W : CfgWf c) (pre post : List Op) (k v : Bytes)
    (hk : CValidKey c k) (hv : CValidValue c v)
    (hpost : ∀ v₁, Op.put k v₁ ∉ post) :
    findValueInLogs (runOps (mkEngine c) (pre ++ [.put k v, .del k] ++ post)) k
      = .notFound ∧
    ∀ e : Engine, ValidKey e k → deleteKey e k = .ok (appendKeyValue e k e.tombStone) := by
  obtain ⟨rss, ra, G, hh, I, hc⟩ := runOps_good c (pre ++ [.put k v, .del k] ++ post)
  have hW : CfgWf (cfgOf (runOps (mkEngine c) (pre ++ [.put k v, .del k] ++ post))) := by
    rw [hc]; exact W
  have hfind := find_eq_hist _ rss ra G hW k (validKey_of_cfg _ c hc k hk)
  rw [hh] at hfind
  have hhist : lastVal k (histOf c (pre ++ [.put k v, .del k] ++ post))
      = some c.tombStone := by
    rw [histOf_append, histOf_append, lastVal_append, lastVal_append]
    have hmid : histOf c [Op.put k v, Op.del k] = [(k, v), (k, c.tombStone)] := by
      unfold histOf
      rw [List.filterMap_cons, List.filterMap_cons]
      have h₁ : opRec c (.put k v) = some (k, v) := by
        simp only [opRec]
        rw [if_pos hk, if_pos hv]
      have h₂ : opRec c (.del k) = some (k, c.tombStone) := by
        simp only [opRec]
        rw [if_pos hk]
      rw [h₁, h₂]
      rfl
    have hmid₂ : lastVal k [(k, v), (k, c.tombStone)] = some c.tombStone := by
      simp [lastVal]
    have hptomb : ∀ r ∈ histOf c post, r.1 = k → r.2 = c.tombStone := by
      intro r hr hk₁
      obtain ⟨op, hop, hrec⟩ := List.mem_filterMap.1 hr
      cases op with
      | put k₁ v₁ =>
        have hkk : k₁ = k := by
          have := opRec_key c (.put k₁ v₁) r hrec
          rw [hk₁] at this
          exact this.symm
        subst hkk
        exact absurd hop (hpost v₁)
      | del k₁ =>
        simp only [opRec] at hrec
        by_cases hck : CValidKey c k₁
        · rw [if_pos hck] at hrec
          cases hrec
          rfl
        · rw [if_neg hck] at hrec
          cases hrec
    rcases lastVal_all_tomb k c.tombStone (histOf c post) hptomb with hpn | hps
    · rw [hpn, hmid, hmid₂]
    · rw [hps]
  rw [hhist] at hfind
  refine ⟨?_, ?_⟩
  · rw [hfind]
    show (if c.tombStone = _ then GetRes.notFound else _) = GetRes.notFound
    rw [if_pos (tombStone_of_cfg _ c hc).symm]
  · intro e hke
    unfold deleteKey
    rw [if_pos hke]

/-- Witness for C4 at the default configuration. -/
theorem delete_hides_witness :
    findValueInLogs
        (runOps (mkEngine defaultCfg) ([] ++ [.put [97] [98], .del [97]] ++ [])) [97]
      = .notFound ∧
    deleteKey (mkEngine defaultCfg) [97]
      = .ok (appendKeyValue (mkEngine defaultCfg) [97] (mkEngine defaultCfg).tombStone) :=
  ⟨(delete_hides defaultCfg (by decide) [] [] [97] [98] (by decide) (by decide)
      (by intro v₁ h; cases h)).1,
    (delete_hides defaultCfg (by decide) [] [] [97] [98] (by decide) (by decide)
      (by intro v₁ h; cases h)).2 (mkEngine defaultCfg) (by decide)⟩

/-! ## Compaction (compaction.go)

The compaction engine is created with `NewEngine(compactionPath, e.options...)`.
The `options` field and the `compactionManager` field of `Engine` are not in
the sources provided under src/, but per the spec (§4.7 step 3) the inner
engine carries the same options as the outer one, so the model starts it from
`mkEngine (cfgOf e)`.  The compaction mutex and directory bookkeeping are
outside the sequential model. -/

/-- compactEntryStep: the body of `compact`'s loop over one index entry
(compaction.go).  The key is skipped if already recorded as deleted or
already present in the compaction engine (`cEngine.Get` succeeds); otherwise
the value is read from the outer segment — `readValueFromFile` fails on a
tombstone, aborting the compaction (`none`), which makes the subsequent
tombstone branch dead code; a live value is `Put` into the compaction
engine, a `Put` error aborting as well. -/
def compactEntryStep (e : Engine) (lg : ReadLog) (st : Engine × List Bytes)
    (ent : Bytes × Nat) : Option (Engine × List Bytes) :=
  if ent.1 ∈ st.2 then some st
  else
    match findValueInLogs st.1 ent.1 with
    | .ok _ => some st
    | _ =>
      match readValueFromFile e lg.content ent.2 with
      | none => none
      | some value =>
        if value = e.tombStone then some (st.1, ent.1 :: st.2)
        else
          match putKeyValue st.1 ent.1 value with
          | .ok cE => some (cE, st.2)
          | .err _ => none

/-- compactLogStep: one snapshot segment, iterating its index entries (Go map
iteration; the model uses the index's insertion order). -/
def compactLogStep (e : Engine) (st : Engine × List Bytes) (lg : ReadLog) :
    Option (Engine × List Bytes) :=
  lg.index.foldlM (fun st₁ ent => compactEntryStep e lg st₁ ent) st

/-- compactLoop: walk the snapshot newest to oldest with the fresh compaction
engine and the `deletedKeys` set. -/
def compactLoop (e : Engine) : Option (Engine × List Bytes) :=
  (e.readLogs.reverse).foldlM (compactLogStep e) (mkEngine (cfgOf e), [])

/-- Modelled from the spec: `closeWriteLog` is called by `compact` and by
the tests but its definition is not among the sources under src/; spec §4.7
step 6 says it seals the inner engine's active segment — promote it to the
sealed list and close its file. -/
def closeWriteLog (e : Engine) : Engine :=
  { e with readLogs := e.readLogs ++ [sealOf e.writeLog] }

/-- isLogInSnapshot of compaction.go (path comparison, by identifier). -/
def isLogInSnapshot (lg : ReadLog) (snap : List ReadLog) : Bool :=
  snap.any (fun s => s.id == lg.id)

/-- replaceCompactedLogs of compaction.go: the new sealed list is the
compaction engine's sealed segments (moved into the data directory, keeping
their file names / identifiers) followed by the sealed segments that were
not part of the snapshot. -/
def replaceCompactedLogs (e : Engine) (snap : List ReadLog) (cE : Engine) : Engine :=
  { e with readLogs := cE.readLogs ++ e.readLogs.filter (fun lg => !isLogInSnapshot lg snap) }

/-- compact of compaction.go, sequentially: snapshot the sealed list, replay
live records into a fresh inner engine, seal it, splice the result back.
`none` is the error return. -/
def compact (e : Engine) : Option Engine :=
  match compactLoop e with
  | none => none
  | some (cE, _) => some (replaceCompactedLogs e e.readLogs (closeWriteLog cE))

/-! ## Claim C5 — compaction and tombstones -/

/-- eC5: a workload whose sealed segments hold `a ↦ v` (segment 1) and the
newer `a ↦ tombstone` (segment 2); `b` keeps the active segment busy.
`maxLogBytes = 20` forces the rotations. -/
def eC5 : Engine :=
  runOps (mkEngine ⟨20, 1024, defaultTombstone⟩)
    [.put [97] [1, 1, 1, 1, 1, 1, 1, 1, 1, 1, 1, 1, 1, 1, 1, 1],
     .del [97], .put [98] [2]]

/-- C5 (code bug): the key `[97]` is deleted — its newest occurrence in the
snapshotted sealed segments is the tombstone, and `Get` correctly yields
not-found — yet `compact()` FAILS on this state instead of recording the key
as deleted: `readValueFromFile` returns the "value not found" error on the
tombstone before the compactor's tombstone branch can run (that branch is
dead code), and `compact` propagates the error.  The test
`TestSuccessfulCompactionWithDeletions` requires `compact` to succeed after
deletions, so the code contradicts its own test. -/
theorem compact_tombstone_fails :
    findValueInLogs eC5 [97] = .notFound ∧
    eC5.readLogs.map (·.id) = [1, 2] ∧
    compact eC5 = none := by
  decide

/-! ## Claim C9 — identifier discipline after compaction -/

/-- eC9: three successive overwrites of one key leave sealed segments 1 and 2
(both holding only key `[97]`) and the active segment 3. -/
def eC9 : Engine :=
  runOps (mkEngine ⟨20, 1024, defaultTombstone⟩)
    [.put [97] [1, 1, 1, 1, 1, 1, 1, 1, 1, 1, 1, 1, 1, 1, 1, 1],
     .put [97] [2, 2, 2, 2, 2, 2, 2, 2, 2, 2, 2, 2, 2, 2, 2, 2],
     .put [97] [3, 3, 3, 3, 3, 3, 3, 3, 3, 3, 3, 3, 3, 3, 3, 3]]

/-- C9 (code bug): compaction shrinks the sealed list to the single segment
`1.dat` while the active segment keeps the name `3.dat`; the next rotation
then names the new active segment `len(readLogs)+1 = 3` — the same
identifier as the just-sealed segment `3.dat`, so the active identifier does
NOT strictly exceed every sealed identifier (and the new active file even
opens the just-sealed file in append mode).  This is the collision hazard
the spec flags in §9. -/
theorem active_id_collision :
    (compact eC9).map (fun e₁ =>
      ((applyOp e₁ (.put [98] [2])).writeLog.id,
        (applyOp e₁ (.put [98] [2])).readLogs.map (·.id)))
      = some (3, [1, 3]) := by
  decide

/-! ## Claim C3 — compaction preserves Get; file count -/

/-- datFileCount: the number of non-empty `.dat` files in the data directory
(`extractDatafiles` skips zero-size files; the active segment's file is on
disk alongside the sealed ones). -/
def datFileCount (e : Engine) : Nat :=
  (e.readLogs.filter (fun lg => !lg.content.isEmpty)).length
    + (if e.writeLog.content.isEmpty then 0 else 1)

/-- eC3: workload whose single sealed segment holds two records for the same
key (a duplicate) plus a busy active segment. -/
def eC3 : Engine :=
  runOps (mkEngine ⟨20, 1024, defaultTombstone⟩)
    [.put [97] [1, 1, 1, 1], .put [97] [2, 2, 2, 2, 2, 2, 2], .put [98] [3]]

/-- C3 counterexample: the sealed segment of `eC3` contains duplicate
records for key `[97]`, `compact()` succeeds, and the number of `.dat`
segment files afterwards equals the number before (2 = 2): the frozen
claim's "strictly decreases when the sealed segments contained duplicate
keys or tombstoned keys" fails at this input. -/
theorem compact_no_strict_decrease :
    eC3.readLogs.map (·.content)
      = [encodeRecs [([97], [1, 1, 1, 1]), ([97], [2, 2, 2, 2, 2, 2, 2])]] ∧
    datFileCount eC3 = 2 ∧
    (compact eC3).map datFileCount = some 2 := by
  decide

/-! ## Claim C6 — recovery on open (readLog.go / dataFile.go)

Recovery works on file names, so this part of the model carries the path as
a `String` next to the file bytes. -/

/-- DiskFile: one data file found by `extractDatafiles`, in directory
enumeration order (`os.ReadDir` sorts names lexicographically). -/
structure DiskFile where
  path : String
  content : Bytes
deriving DecidableEq

/-- parseGoDigits: all-digit run to a number. -/
def parseGoDigits (cs : List Char) : Option Nat :=
  if cs ≠ [] ∧ cs.all (fun ch => ch.isDigit) then
    some (cs.foldl (fun a ch => 10 * a + (ch.toNat - 48)) 0)
  else none

/-- goAtoi models `strconv.Atoi`: optional sign then digits; anything else
is an error. -/
def goAtoi (s : String) : Option Int :=
  match s.data with
  | [] => none
  | ch :: rest =>
    if ch = '+' then (parseGoDigits rest).map (fun n => (n : Int))
    else if ch = '-' then (parseGoDigits rest).map (fun n => -(n : Int))
    else (parseGoDigits (ch :: rest)).map (fun n => (n : Int))

/-- extractFileNumber of dataFile.go.  The source calls `filepath.Base` and
`strings.TrimSuffix` but DISCARDS both results, then runs `strconv.Atoi` on
the unmodified argument; the model reproduces that faithfully, so any name
still carrying the `.dat` suffix (or a directory prefix) parses to `-1`. -/
def extractFileNumber (filename : String) : Int :=
  match goAtoi filename with
  | some n => n
  | none => -1

/-- insertByFileNumber: stable insertion for the model of `sort.Slice` with
the comparator `extractFileNumber p_i < extractFileNumber p_j`.  Go's slice
sort leaves the relative order of comparator-equal elements unspecified; the
model commits to the stable outcome, which is what the source produces on
the small all-equal inputs at issue (insertion sort region of pdqsort). -/
def insertByFileNumber (f : DiskFile) : List DiskFile → List DiskFile
  | [] => [f]
  | g :: rest =>
    if extractFileNumber g.path < extractFileNumber f.path then
      g :: insertByFileNumber f rest
    else f :: g :: rest

/-- sortByFileNumber: the model of `sort.Slice(paths, …)` in `initReadLogs`. -/
def sortByFileNumber : List DiskFile → List DiskFile
  | [] => []
  | f :: rest => insertByFileNumber f (sortByFileNumber rest)

/-- SeqRead: outcome of one `readDataFile(file)` call during a sequential
scan: a clean end-of-file, a read error, or a payload with the next
position. -/
inductive SeqRead where
  | eof
  | ioErr
  | ok (payload : Bytes) (next : Nat)
deriving DecidableEq

/-- readDataFileSeq models `readDataFile` of dataFile.go at position `pos`
with Go's conventions: `binary.Read` yields `io.EOF` when no bytes remain at
a record boundary and a distinct error on a 1–3 byte header; `io.ReadFull`
of a non-empty payload yields `io.EOF` when zero payload bytes remain and a
distinct error on a short payload. -/
def readDataFileSeq (c : Bytes) (pos : Nat) : SeqRead :=
  if c.length ≤ pos then .eof
  else if c.length < pos + 4 then .ioErr
  else
    let sz := decodeLE32 (c.drop pos)
    if 0 < sz ∧ pos + 4 = c.length then .eof
    else if c.length < pos + 4 + sz then .ioErr
    else .ok ((c.drop (pos + 4)).take sz) (pos + 4 + sz)

/-- scanIndexGo: the loop of `extractReadLog`: read a key, record the
position after it (the value-length field) in the index — overwriting any
earlier occurrence of the key — then read and discard the value; `io.EOF`
at either read ends the scan.  Each iteration advances by at least 8 bytes,
so fuel `c.length + 1` never runs out on the inputs evaluated here. -/
def scanIndexGo (c : Bytes) : Nat → Nat → List (Bytes × Nat) → Option (List (Bytes × Nat))
  | 0, _, _ => none
  | fuel + 1, pos, idx =>
    match readDataFileSeq c pos with
    | .eof => some idx
    | .ioErr => none
    | .ok key p₁ =>
      match readDataFileSeq c p₁ with
      | .eof => some (upsert idx key p₁)
      | .ioErr => none
      | .ok _ p₂ => scanIndexGo c fuel p₂ (upsert idx key p₁)

/-- extractReadLog of readLog.go on one file. -/
def extractReadLogModel (f : DiskFile) : Option (String × List (Bytes × Nat)) :=
  (scanIndexGo f.content (f.content.length + 1) 0 []).map (fun idx => (f.path, idx))

/-- initReadLogs of readLog.go: sort the discovered files with
`extractFileNumber`, then scan each in order. -/
def initReadLogsModel (files : List DiskFile) :
    Option (List (String × List (Bytes × Nat))) :=
  (sortByFileNumber files).mapM extractReadLogModel

/-- c6Files: three data files as `extractDatafiles` lists them
(lexicographic directory order: "1.dat", "10.dat", "2.dat"); `1.dat` holds a
duplicate key. -/
def c6Files : List DiskFile :=
  [⟨"1.dat", encodeRecs [([107], [1]), ([107], [2])]⟩,
   ⟨"10.dat", encodeRecs [([107], [3])]⟩,
   ⟨"2.dat", encodeRecs [([107], [4])]⟩]

/-- C6 (code bug): `extractFileNumber` discards the results of
`filepath.Base` and `strings.TrimSuffix`, so `strconv.Atoi` sees the full
file name and every identifier parses to `-1`; the sort comparator never
fires and the recovered list stays in directory order with `10.dat` BEFORE
`2.dat`, not ascending by the numeric identifier as the claim (and spec §4.8)
require.  The per-file index half of the claim does hold: the scan maps each
key to the value offset of its latest occurrence (`[107] ↦ 15`, the second
record of `1.dat`, offsets 5 elsewhere). -/
theorem initReadLogs_order_bug :
    extractFileNumber "2.dat" = -1 ∧
    extractFileNumber "10.dat" = -1 ∧
    (initReadLogsModel c6Files).map (fun logs => logs.map (·.1))
      = some ["1.dat", "10.dat", "2.dat"] ∧
    (initReadLogsModel c6Files).map (fun logs => logs.map (·.2))
      = some [[([107], 15)], [([107], 5)], [([107], 5)]] := by
  decide

/-! ### Index membership lemmas (for the compaction proof) -/

theorem lookupIdx_none_iff (idx : List (Bytes × Nat)) (k : Bytes) :
    lookupIdx idx k = none ↔ k ∉ idx.map (·.1) := by
  induction idx with
  | nil => simp [lookupIdx]
  | cons hd tl ih =>
    obtain ⟨k₁, o⟩ := hd
    show (if k₁ = k then some o else lookupIdx tl k) = none ↔ _
    by_cases h : k₁ = k
    · subst h
      simp
    · rw [if_neg h, ih, List.map_cons]
      constructor
      · intro hk hmem
        rcases List.mem_cons.1 hmem with h₁ | h₁
        · exact h h₁.symm
        · exact hk h₁
      · intro hk hmem
        exact hk (List.mem_cons_of_mem _ hmem)

theorem upsert_keys (idx : List (Bytes × Nat)) (k : Bytes) (off : Nat) :
    (upsert idx k off).map (·.1)
      = if k ∈ idx.map (·.1) then idx.map (·.1) else idx.map (·.1) ++ [k] := by
  induction idx with
  | nil => simp [upsert]
  | cons hd tl ih =>
    obtain ⟨k₁, o⟩ := hd
    by_cases h : k₁ = k
    · subst h
      simp [upsert]
    · have h₂ : ¬ k = k₁ := fun hh => h hh.symm
      by_cases hmem : k ∈ tl.map (·.1) <;>
        simp [upsert, h, h₂, hmem, ih]

theorem upsert_keys_nodup (idx : List (Bytes × Nat)) (k : Bytes) (off : Nat)
    (h : (idx.map (·.1)).Nodup) : ((upsert idx k off).map (·.1)).Nodup := by
  rw [upsert_keys]
  by_cases hmem : k ∈ idx.map (·.1)
  · rw [if_pos hmem]; exact h
  · rw [if_neg hmem]
    rw [List.nodup_append]
    exact ⟨h, List.nodup_singleton k, by simpa using hmem⟩

theorem buildIndex_keys_nodup (rs : LogAbs) :
    ∀ (pos : Nat) (idx : List (Bytes × Nat)),
      ((idx.map (·.1)).Nodup) → (((buildIndex pos rs idx).map (·.1)).Nodup) := by
  induction rs with
  | nil => intro pos idx h; exact h
  | cons hd tl ih =>
    intro pos idx h
    obtain ⟨k, v⟩ := hd
    exact ih _ _ (upsert_keys_nodup idx k _ h)

theorem indexOfRecs_keys_nodup (rs : LogAbs) :
    ((indexOfRecs rs).map (·.1)).Nodup :=
  buildIndex_keys_nodup rs 0 [] (by simp)

theorem lookupIdx_of_mem (idx : List (Bytes × Nat)) (k : Bytes) (off : Nat)
    (hnd : (idx.map (·.1)).Nodup) (hmem : (k, off) ∈ idx) :
    lookupIdx idx k = some off := by
  induction idx with
  | nil => cases hmem
  | cons hd tl ih =>
    obtain ⟨k₁, o⟩ := hd
    rcases List.mem_cons.1 hmem with h | h
    · obtain ⟨h₁, h₂⟩ := Prod.mk.injEq .. ▸ h
      show lookupIdx ((k₁, o) :: tl) k = some off
      rw [lookupIdx]
      rw [if_pos h₁.symm, h₂]
    · show lookupIdx ((k₁, o) :: tl) k = some off
      rw [lookupIdx]
      have hk₁ : k₁ ≠ k := by
        intro hk
        subst hk
        have : k₁ ∈ tl.map (·.1) := by
          exact List.mem_map.2 ⟨(k₁, off), h, rfl⟩
        exact (List.nodup_cons.1 (by simpa using hnd)).1 this
      rw [if_neg hk₁]
      exact ih (List.nodup_cons.1 (by simpa using hnd)).2 h

theorem mem_indexOfRecs_lastValOff (rs : LogAbs) (k : Bytes) (off : Nat)
    (hmem : (k, off) ∈ indexOfRecs rs) :
    ∃ w, lastValOff 0 k rs = some (off, w) ∧ lastVal k rs = some w := by
  have hlook := lookupIdx_of_mem _ k off (indexOfRecs_keys_nodup rs) hmem
  rw [lookupIdx_indexOfRecs] at hlook
  cases hoff : lastValOff 0 k rs with
  | none => rw [hoff] at hlook; cases hlook
  | some r =>
    obtain ⟨o, w⟩ := r
    rw [hoff] at hlook
    have ho : o = off := by
      injection hlook
    subst ho
    have hval := lastValOff_val rs 0 k
    rw [hoff] at hval
    exact ⟨w, rfl, hval.symm⟩

theorem mem_idx_keys_iff (rs : LogAbs) (k : Bytes) :
    k ∈ (indexOfRecs rs).map (·.1) ↔ lastVal k rs ≠ none := by
  constructor
  · intro hmem hnone
    have := lookupIdx_recs_none rs k hnone
    rw [lookupIdx_none_iff] at this
    exact this hmem
  · intro hne
    by_contra hnot
    have := (lookupIdx_none_iff (indexOfRecs rs) k).2 hnot
    rw [lookupIdx_indexOfRecs] at this
    cases hoff : lastValOff 0 k rs with
    | none => exact hne ((lastValOff_none rs 0 k).1 hoff)
    | some r => rw [hoff] at this; cases this

theorem lastVal_mem (k : Bytes) (rs : LogAbs) (v : Bytes) (h : lastVal k rs = some v) :
    (k, v) ∈ rs := by
  induction rs with
  | nil => cases h
  | cons r rest ih =>
    obtain ⟨k₁, v₁⟩ := r
    rw [lastVal] at h
    cases htl : lastVal k rest with
    | some w =>
      rw [htl] at h
      injection h with h₁
      subst h₁
      exact List.mem_cons_of_mem _ (ih htl)
    | none =>
      rw [htl] at h
      by_cases hk : k₁ = k
      · rw [if_pos hk] at h
        injection h with h₁
        subst h₁
        subst hk
        exact List.mem_cons_self _ _
      · rw [if_neg hk] at h
        cases h

theorem lastVal_snoc (k k₁ v₁ : Bytes) (rs : LogAbs) :
    lastVal k (rs ++ [(k₁, v₁)])
      = if k₁ = k then some v₁ else lastVal k rs := by
  rw [lastVal_append]
  by_cases h : k₁ = k <;> simp [lastVal, h]

/-! ### Compaction invariant -/

/-- CInv: between snapshot segments, the deleted-keys set is empty (the
tombstone branch is dead code), the compaction engine keeps the outer
configuration, and its flattened history resolves every key to its newest
value among the processed (newest-first) segments — never a tombstone. -/
def CInv (c : Cfg) (processed : List LogAbs) (st : Engine × List Bytes) : Prop :=
  st.2 = [] ∧ cfgOf st.1 = c ∧
  ∃ rssC raC, GoodLogs st.1 rssC raC ∧
    (∀ k, lastVal k (flattenRecs rssC ++ raC) = snapVal k processed) ∧
    (∀ r ∈ flattenRecs rssC ++ raC, r.2 ≠ c.tombStone)

/-- midVal: mid-segment resolution — processed segments first, then the keys
of the current segment handled so far. -/
def midVal (processed : List LogAbs) (doneKeys : List Bytes) (rs : LogAbs)
    (k : Bytes) : Option Bytes :=
  match snapVal k processed with
  | some u => some u
  | none => if k ∈ doneKeys then lastVal k rs else none

/-- CMid: CInv refined to the middle of one segment's entry loop. -/
def CMid (c : Cfg) (processed : List LogAbs) (doneKeys : List Bytes) (rs : LogAbs)
    (st : Engine × List Bytes) : Prop :=
  st.2 = [] ∧ cfgOf st.1 = c ∧
  ∃ rssC raC, GoodLogs st.1 rssC raC ∧
    (∀ k, lastVal k (flattenRecs rssC ++ raC) = midVal processed doneKeys rs k) ∧
    (∀ r ∈ flattenRecs rssC ++ raC, r.2 ≠ c.tombStone)

theorem midVal_nil (processed : List LogAbs) (rs : LogAbs) (k : Bytes) :
    midVal processed [] rs k = snapVal k processed := by
  unfold midVal
  cases snapVal k processed <;> simp

theorem CInv_CMid (c : Cfg) (p : List LogAbs) (rs : LogAbs) (st : Engine × List Bytes)
    (h : CInv c p st) : CMid c p [] rs st := by
  obtain ⟨h₁, h₂, rssC, raC, G, hval, ht⟩ := h
  exact ⟨h₁, h₂, rssC, raC, G, fun k => by rw [hval k, midVal_nil], ht⟩

theorem midVal_none_snap (p : List LogAbs) (dk : List Bytes) (rs : LogAbs) (k : Bytes)
    (h : midVal p dk rs k = none) : snapVal k p = none := by
  unfold midVal at h
  cases hs : snapVal k p with
  | none => rfl
  | some u => rw [hs] at h; cases h

theorem midVal_cons_ne (p : List LogAbs) (dk : List Bytes) (rs : LogAbs) (k k₁ : Bytes)
    (h : k₁ ≠ k) : midVal p (k :: dk) rs k₁ = midVal p dk rs k₁ := by
  unfold midVal
  cases snapVal k₁ p with
  | some u => rfl
  | none =>
    by_cases hm : k₁ ∈ dk <;> simp [List.mem_cons, h, hm]

theorem midVal_cons_of_some (p : List LogAbs) (dk : List Bytes) (rs : LogAbs)
    (k u : Bytes) (h : midVal p dk rs k = some u) :
    ∀ k₁, midVal p (k :: dk) rs k₁ = midVal p dk rs k₁ := by
  intro k₁
  by_cases hk : k₁ = k
  · subst hk
    unfold midVal at h ⊢
    cases hs : snapVal k₁ p with
    | some w => rfl
    | none =>
      rw [hs] at h
      have hmem : k₁ ∈ dk := by
        by_contra hnot
        rw [if_neg hnot] at h
        cases h
      rw [if_pos hmem, if_pos (by simp [hmem])]
  · exact midVal_cons_ne p dk rs k k₁ hk

/-- One entry of the compaction loop preserves the mid-segment invariant,
the entry's key now counted as handled.  A `none` step cannot reach this
lemma's conclusion, so tombstone reads (which return `none`) are excluded on
successful runs. -/
theorem compactEntryStep_inv (c : Cfg) (W : CfgWf c) (e : Engine) (hce : cfgOf e = c)
    (lg : ReadLog) (rs : LogAbs) (hm : LogMatches lg rs) (hwf : RecsWf c rs)
    (p : List LogAbs) (dk : List Bytes) (k : Bytes) (off : Nat)
    (hent : (k, off) ∈ indexOfRecs rs) (st st₁ : Engine × List Bytes)
    (hinv : CMid c p dk rs st)
    (hstep : compactEntryStep e lg st (k, off) = some st₁) :
    CMid c p (k :: dk) rs st₁ := by
  obtain ⟨cE, del⟩ := st
  obtain ⟨hdel, hcfg, rssC, raC, G, hval, htomb⟩ := hinv
  have hdel' : del = [] := hdel
  subst hdel'
  obtain ⟨w, hoff, hlv⟩ := mem_indexOfRecs_lastValOff rs k off hent
  have hkwf := hwf (k, w) (lastVal_mem k rs w hlv)
  have hvk : ValidKey cE k := validKey_of_cfg cE c hcfg k ⟨hkwf.1, hkwf.2.1⟩
  have hW₁ : CfgWf (cfgOf cE) := by rw [hcfg]; exact W
  have hfind := find_eq_hist cE rssC raC G hW₁ k hvk
  rw [hval k] at hfind
  unfold compactEntryStep at hstep
  rw [if_neg (by simp)] at hstep
  dsimp only at hstep
  cases hmid : midVal p dk rs k with
  | some u =>
    rw [hmid] at hfind
    have hu : (k, u) ∈ flattenRecs rssC ++ raC :=
      lastVal_mem k _ u (by rw [hval k, hmid])
    have hune : u ≠ c.tombStone := htomb (k, u) hu
    have hok : findValueInLogs cE k = .ok u := by
      rw [hfind]
      show (if u = cE.tombStone then GetRes.notFound else GetRes.ok u) = GetRes.ok u
      rw [if_neg (by rw [tombStone_of_cfg cE c hcfg]; exact hune)]
    rw [hok] at hstep
    have hst : st₁ = (cE, []) := by
      have h₂ : some ((cE, ([] : List Bytes))) = some st₁ := hstep
      injection h₂ with h₃
      exact h₃.symm
    subst hst
    refine ⟨rfl, hcfg, rssC, raC, G, ?_, htomb⟩
    intro k₁
    rw [hval k₁, midVal_cons_of_some p dk rs k u hmid k₁]
  | none =>
    rw [hmid] at hfind
    have hnf : findValueInLogs cE k = .notFound := hfind
    rw [hnf] at hstep
    have hwvals := recsWf_values c rs W hwf
    obtain ⟨o, ho, hread⟩ := lookupIdx_recs_some e rs k w hwvals hlv
    have hread' : readValueFromFile e lg.content off
        = (if w = e.tombStone then none else some w) := by
      rw [hm.1]
      have hlook := lookupIdx_of_mem _ k off (indexOfRecs_keys_nodup rs) hent
      rw [ho] at hlook
      injection hlook with h₃
      rw [← h₃]
      exact hread
    by_cases hwt : w = c.tombStone
    · rw [if_pos (by rw [tombStone_of_cfg e c hce]; exact hwt)] at hread'
      exfalso
      have h₂ : (match readValueFromFile e lg.content off with
          | none => none
          | some value =>
            if value = e.tombStone then some (cE, k :: [])
            else
              match putKeyValue cE k value with
              | .ok cE₁ => some (cE₁, ([] : List Bytes))
              | .err _ => none) = some st₁ := hstep
      simp only [hread'] at h₂
      cases h₂
    · rw [if_neg (by rw [tombStone_of_cfg e c hce]; exact hwt)] at hread'
      have hvv : ValidValue cE w := by
        constructor
        · rw [tombStone_of_cfg cE c hcfg]
          exact hwt
        · have : cE.maxLogBytes = c.maxLogBytes := by rw [← hcfg]; rfl
          rw [this]
          rcases hkwf.2.2 with h₃ | h₃
          · exact h₃
          · exact absurd h₃ hwt
      have hput : putKeyValue cE k w = .ok (appendKeyValue cE k w) := by
        unfold putKeyValue
        rw [if_pos hvk, if_pos hvv]
      have hst : st₁ = (appendKeyValue cE k w, []) := by
        have h₂ : (match readValueFromFile e lg.content off with
          | none => none
          | some value =>
            if value = e.tombStone then some (cE, k :: [])
            else
              match putKeyValue cE k value with
              | .ok cE₁ => some (cE₁, ([] : List Bytes))
              | .err _ => none) = some st₁ := hstep
        simp only [hread'] at h₂
        rw [if_neg (by rw [tombStone_of_cfg e c hce]; exact hwt)] at h₂
        simp only [hput] at h₂
        injection h₂ with h₃
        exact h₃.symm
      subst hst
      obtain ⟨rss₁, ra₁, G₁, hh₁⟩ := appendKeyValue_hist cE rssC raC k w G
        ⟨hvk.1, hvk.2⟩ (Or.inl hvv.2)
      refine ⟨rfl, by rw [cfgOf_appendKeyValue, hcfg], rss₁, ra₁, G₁, ?_, ?_⟩
      · intro k₁
        rw [hh₁, lastVal_snoc]
        by_cases hk₁ : k = k₁
        · subst hk₁
          rw [if_pos rfl]
          unfold midVal
          rw [midVal_none_snap p dk rs k hmid]
          rw [if_pos (by simp), hlv]
        · rw [if_neg hk₁,
            midVal_cons_ne p dk rs k k₁ (fun h₃ => hk₁ h₃.symm), hval k₁]
      · intro r hr
        rw [hh₁] at hr
        rcases List.mem_append.1 hr with h₃ | h₃
        · exact htomb r h₃
        · rw [List.mem_singleton.1 h₃]
          exact hwt

/-- The entry fold over a segment's index preserves the invariant, the
handled key set growing by exactly the processed entries' keys. -/
theorem compactEntries_inv (c : Cfg) (W : CfgWf c) (e : Engine) (hce : cfgOf e = c)
    (lg : ReadLog) (rs : LogAbs) (hm : LogMatches lg rs) (hwf : RecsWf c rs)
    (p : List LogAbs) :
    ∀ (todo : List (Bytes × Nat)) (dk : List Bytes) (st st₁ : Engine × List Bytes),
      (∀ ent ∈ todo, ent ∈ indexOfRecs rs) →
      CMid c p dk rs st →
      todo.foldlM (fun s ent => compactEntryStep e lg s ent) st = some st₁ →
      ∃ dk₁, CMid c p dk₁ rs st₁ ∧
        ∀ k, k ∈ dk₁ ↔ (k ∈ dk ∨ ∃ o, (k, o) ∈ todo) := by
  intro todo
  induction todo with
  | nil =>
    intro dk st st₁ hsub hinv hfold
    have hst : some st = some st₁ := hfold
    injection hst with hst₁
    subst hst₁
    exact ⟨dk, hinv, fun k => by simp⟩
  | cons ent rest ih =>
    intro dk st st₁ hsub hinv hfold
    obtain ⟨k, off⟩ := ent
    rw [List.foldlM_cons] at hfold
    cases hstep : compactEntryStep e lg st (k, off) with
    | none =>
      rw [hstep] at hfold
      cases hfold
    | some st₂ =>
      rw [hstep] at hfold
      have hfold₂ : rest.foldlM (fun s ent => compactEntryStep e lg s ent) st₂
          = some st₁ := hfold
      have hinv₂ := compactEntryStep_inv c W e hce lg rs hm hwf p dk k off
        (hsub (k, off) (by simp)) st st₂ hinv hstep
      obtain ⟨dk₁, hinv₁, hmem⟩ := ih (k :: dk) st₂ st₁
        (fun ent h => hsub ent (by simp [h])) hinv₂ hfold₂
      refine ⟨dk₁, hinv₁, fun k₁ => ?_⟩
      rw [hmem k₁]
      constructor
      · intro h
        rcases h with h | ⟨o, h⟩
        · rcases List.mem_cons.1 h with h₁ | h₁
          · exact Or.inr ⟨off, by rw [h₁]; exact List.mem_cons_self _ _⟩
          · exact Or.inl h₁
        · exact Or.inr ⟨o, List.mem_cons_of_mem _ h⟩
      · intro h
        rcases h with h | ⟨o, h⟩
        · exact Or.inl (List.mem_cons_of_mem _ h)
        · rcases List.mem_cons.1 h with h₁ | h₁
          · obtain ⟨h₂, -⟩ := Prod.mk.injEq .. ▸ h₁
            exact Or.inl (by rw [h₂]; exact List.mem_cons_self _ _)
          · exact Or.inr ⟨o, h₁⟩

/-- One segment of the compaction loop: the invariant advances by that
segment. -/
theorem compactLogStep_inv (c : Cfg) (W : CfgWf c) (e : Engine) (hce : cfgOf e = c)
    (lg : ReadLog) (rs : LogAbs) (hm : LogMatches lg rs) (hwf : RecsWf c rs)
    (p : List LogAbs) (st st₁ : Engine × List Bytes) (hinv : CInv c p st)
    (hfold : compactLogStep e st lg = some st₁) :
    CInv c (p ++ [rs]) st₁ := by
  unfold compactLogStep at hfold
  rw [hm.2] at hfold
  obtain ⟨dk₁, hmid, hmem⟩ := compactEntries_inv c W e hce lg rs hm hwf p
    (indexOfRecs rs) [] st st₁ (fun ent h => h) (CInv_CMid c p rs st hinv) hfold
  obtain ⟨h₁, h₂, rssC, raC, G, hval, ht⟩ := hmid
  refine ⟨h₁, h₂, rssC, raC, G, ?_, ht⟩
  intro k
  rw [hval k, snapVal_append]
  unfold midVal
  cases hs : snapVal k p with
  | some u => rfl
  | none =>
    show (if k ∈ dk₁ then lastVal k rs else none) = snapVal k [rs]
    have hdk : k ∈ dk₁ ↔ lastVal k rs ≠ none := by
      rw [hmem k]
      simp only [List.not_mem_nil, false_or]
      constructor
      · intro ⟨o, h⟩
        rw [← mem_idx_keys_iff]
        exact List.mem_map.2 ⟨(k, o), h, rfl⟩
      · intro h
        obtain ⟨⟨k₂, o⟩, hmem₂, hk₂⟩ := List.mem_map.1 ((mem_idx_keys_iff rs k).2 h)
        exact ⟨o, by rwa [show k₂ = k from hk₂] at hmem₂⟩
    cases hlv : lastVal k rs with
    | some w =>
      have hk : k ∈ dk₁ := hdk.2 (by rw [hlv]; exact fun h => Option.noConfusion h)
      rw [if_pos hk]
      simp [snapVal, hlv]
    | none =>
      have hk : k ∉ dk₁ := fun h => (hdk.1 h) hlv
      rw [if_neg hk]
      simp [snapVal, hlv]

/-- The whole snapshot walk establishes the invariant for all segments. -/
theorem compactLoop_fold_inv (c : Cfg) (W : CfgWf c) (e : Engine) (hce : cfgOf e = c) :
    ∀ (logs : List ReadLog) (rssR : List LogAbs),
      List.Forall₂ LogMatches logs rssR →
      (∀ rs ∈ rssR, RecsWf c rs) →
      ∀ (p : List LogAbs) (st st₁ : Engine × List Bytes),
        CInv c p st →
        logs.foldlM (compactLogStep e) st = some st₁ →
        CInv c (p ++ rssR) st₁ := by
  intro logs rssR hall
  induction hall with
  | nil =>
    intro _ p st st₁ hinv hfold
    have hst : some st = some st₁ := hfold
    injection hst with hst₁
    subst hst₁
    simpa using hinv
  | cons hlr htl ih =>
    rename_i lg rs logs₁ rss₁
    intro hwf p st st₁ hinv hfold
    rw [List.foldlM_cons] at hfold
    cases hstep : compactLogStep e st lg with
    | none =>
      rw [hstep] at hfold
      cases hfold
    | some st₂ =>
      rw [hstep] at hfold
      have hfold₂ : logs₁.foldlM (compactLogStep e) st₂ = some st₁ := hfold
      have hinv₂ := compactLogStep_inv c W e hce lg rs hlr (hwf rs (by simp))
        p st st₂ hinv hstep
      have := ih (fun rs₁ h => hwf rs₁ (by simp [h])) (p ++ [rs]) st₂ st₁ hinv₂ hfold₂
      rwa [List.append_assoc, List.singleton_append] at this

theorem CInv_init (c : Cfg) : CInv c [] (mkEngine c, []) := by
  refine ⟨rfl, rfl, [], [], mkEngine_good c, ?_, ?_⟩
  · intro k
    rfl
  · intro r h
    cases h

theorem isLogInSnapshot_self (snap : List ReadLog) (lg : ReadLog) (h : lg ∈ snap) :
    isLogInSnapshot lg snap = true := by
  unfold isLogInSnapshot
  exact List.any_eq_true.2 ⟨lg, h, by simp⟩

/-- Every sealed segment is in the snapshot taken of that very list, so the
keep-filter of `replaceCompactedLogs` retains nothing. -/
theorem filter_not_in_snapshot (snap : List ReadLog) :
    ∀ logs : List ReadLog, (∀ lg ∈ logs, lg ∈ snap) →
      logs.filter (fun lg => !isLogInSnapshot lg snap) = [] := by
  intro logs
  induction logs with
  | nil => intro _; rfl
  | cons hd tl ih =>
    intro h
    rw [List.filter_cons]
    simp only [isLogInSnapshot_self snap hd (h hd (List.mem_cons_self hd tl)),
      Bool.not_true, Bool.false_eq_true, if_false]
    exact ih (fun lg hm => h lg (List.mem_cons_of_mem hd hm))

/-- C3 (amended): when `compact()` succeeds on an engine reached by a
workload from a fresh engine, every key reads the same value after
compaction as before.  (The strict file-count decrease stated by the spec is
refuted by `compact_no_strict_decrease`; preservation of reads is the part
that holds.) -/
theorem compact_preserves_get (c : Cfg) (W : CfgWf c) (ops : List Op) (e₁ : Engine)
    (hC : compact (runOps (mkEngine c) ops) = some e₁) (k : Bytes) :
    findValueInLogs e₁ k = findValueInLogs (runOps (mkEngine c) ops) k := by
  obtain ⟨rss, ra, G, hh, I, hc⟩ := runOps_good c ops
  set e := runOps (mkEngine c) ops with he
  unfold compact at hC
  cases hL : compactLoop e with
  | none => rw [hL] at hC; cases hC
  | some st =>
    rw [hL] at hC
    obtain ⟨cE, dks⟩ := st
    injection hC with hC₁
    unfold compactLoop at hL
    have hrev : List.Forall₂ LogMatches e.readLogs.reverse rss.reverse :=
      List.rel_reverse G.1
    have hwfr : ∀ rs ∈ rss.reverse, RecsWf c rs := by
      intro rs h
      have h₂ := G.2.2.1 rs (List.mem_reverse.1 h)
      rwa [hc] at h₂
    have hinit : CInv c [] (mkEngine (cfgOf e), []) := by
      rw [hc]; exact CInv_init c
    have hinv := compactLoop_fold_inv c W e hc e.readLogs.reverse rss.reverse hrev
      hwfr [] (mkEngine (cfgOf e), []) (cE, dks) hinit hL
    rw [List.nil_append] at hinv
    obtain ⟨hdk, hcE, rssC, raC, GC, hval, ht⟩ := hinv
    subst hC₁
    have hfilt : e.readLogs.filter (fun lg => !isLogInSnapshot lg e.readLogs) = [] :=
      filter_not_in_snapshot e.readLogs e.readLogs (fun lg h => h)
    have hrl : (replaceCompactedLogs e e.readLogs (closeWriteLog cE)).readLogs
        = cE.readLogs ++ [sealOf cE.writeLog] := by
      show (cE.readLogs ++ [sealOf cE.writeLog]) ++
        e.readLogs.filter (fun lg => !isLogInSnapshot lg e.readLogs) = _
      rw [hfilt, List.append_nil]
    have hcfg : cfgOf (replaceCompactedLogs e e.readLogs (closeWriteLog cE)) = c := hc
    have hcE₁ : cfgOf cE = c := hcE
    have Ge₁ : GoodLogs (replaceCompactedLogs e e.readLogs (closeWriteLog cE))
        (rssC ++ [raC]) ra := by
      refine ⟨?_, ?_, ?_, ?_⟩
      · rw [hrl]
        exact List.rel_append GC.1
          (List.Forall₂.cons ⟨GC.2.1.1, GC.2.1.2.1⟩ List.Forall₂.nil)
      · exact G.2.1
      · intro rs h
        rw [hcfg]
        rcases List.mem_append.1 h with h₁ | h₁
        · have h₂ := GC.2.2.1 rs h₁
          rwa [hcE₁] at h₂
        · have h₂ : rs = raC := by
            rcases List.mem_cons.1 h₁ with h₃ | h₃
            · exact h₃
            · cases h₃
          rw [h₂]
          have h₃ := GC.2.2.2
          rwa [hcE₁] at h₃
      · rw [hcfg, ← hc]
        exact G.2.2.2
    by_cases hk : ValidKey e k
    · have hk₁ : ValidKey (replaceCompactedLogs e e.readLogs (closeWriteLog cE)) k := hk
      rw [find_eq_hist _ (rssC ++ [raC]) ra Ge₁ (by rw [hcfg]; exact W) k hk₁,
          find_eq_hist e rss ra G (by rw [hc]; exact W) k hk]
      have harg : lastVal k (flattenRecs (rssC ++ [raC]) ++ ra)
          = lastVal k (flattenRecs rss ++ ra) := by
        have h₂ : flattenRecs (rssC ++ [raC]) = flattenRecs rssC ++ raC := by
          rw [flattenRecs_append]
          simp [flattenRecs]
        rw [h₂, lastVal_append k (flattenRecs rssC ++ raC) ra,
            lastVal_append k (flattenRecs rss) ra, hval k, snapVal_reverse]
      rw [harg]
      rfl
    · have hk₁ : ¬ ValidKey (replaceCompactedLogs e e.readLogs (closeWriteLog cE)) k :=
        hk
      unfold findValueInLogs
      rw [if_neg hk₁, if_neg hk]

theorem compact_preserves_get_witness :
    findValueInLogs
        ⟨[⟨1, [], []⟩], ⟨1, [1, 0, 0, 0, 97, 1, 0, 0, 0, 98], [([97], 5)], 10⟩,
          10485760, 1024, defaultTombstone⟩ [97]
      = findValueInLogs (runOps (mkEngine defaultCfg) [.put [97] [98]]) [97] :=
  compact_preserves_get defaultCfg (by decide) [.put [97] [98]]
    ⟨[⟨1, [], []⟩], ⟨1, [1, 0, 0, 0, 97, 1, 0, 0, 0, 98], [([97], 5)], 10⟩,
      10485760, 1024, defaultTombstone⟩ (by decide) [97]

end Kashk
